import Mathlib

/-!
Verification of the GF(2) carry-less arithmetic core of a CRC-32 engine:
a software carry-less multiplier, a polynomial long-division helper, and a
Barret-reduction CRC update.  Machine integers (`u8`, `u32`, `u64`) are
embedded as `Nat` with explicit reduction modulo `2^32` / `2^64` wherever
the original code truncates; fallible operations return `Option`.
-/

/-- Truncation to 32 bits (`as u32`, wrapping `u32` arithmetic). -/
def mask32 (x : Nat) : Nat := x % 2 ^ 32

/-- Truncation to 64 bits (`as u64`, wrapping `u64` arithmetic). -/
def mask64 (x : Nat) : Nat := x % 2 ^ 64

/-- Arithmetic (sign-filling) right shift of a 64-bit value, the semantics of
`>>` on `i64`: the vacated high bits are copies of the sign bit (bit 63). -/
def sar64 (x s : Nat) : Nat :=
  if x.testBit 63 then (x >>> s) ||| (2 ^ 64 - 2 ^ (64 - s)) else x >>> s

/-- Software carry-less multiplication, the portable fallback path of
`pmul64`: for every bit `i` of `a` that is set, XOR `b << i` into the low
accumulator and `b >> (64-1-i)` into the high accumulator; the mask
`(((a as i64) << (64-1-i)) >> (64-1)) as u64` is all-ones exactly when bit
`i` of `a` is set.  The final `hi >> 1` compensates for using `64-1-i`
instead of the (possibly full-word) shift `64-i`. -/
def pmul64 (a b : Nat) : Nat × Nat :=
  let s := (List.range 64).foldl
    (fun s i =>
      let mask := sar64 (mask64 (a <<< (64 - 1 - i))) (64 - 1)
      (s.1 ^^^ (mask &&& mask64 (b <<< i)), s.2 ^^^ (mask &&& (b >>> (64 - 1 - i)))))
    (0, 0)
  (s.1, s.2 >>> 1)

/-- 32-bit carry-less multiplication: widen both operands, take the low
64-bit half of `pmul64`, and split it into two 32-bit halves. -/
def pmul32 (a b : Nat) : Nat × Nat :=
  let lo := (pmul64 a b).1
  (mask32 lo, mask32 (lo >>> 32))

/-- Bit length of a 64-bit value, computed by a fuelled halving recursion
(`blenAux 64 x` is the position of the highest set bit, plus one). -/
def blenAux : Nat → Nat → Nat
  | 0, _ => 0
  | fuel + 1, x => if x = 0 then 0 else blenAux fuel (x / 2) + 1

/-- Bit length of a 64-bit value. -/
def blen (x : Nat) : Nat := blenAux 64 x

/-- `u64::leading_zeros`. -/
def leadingZeros64 (x : Nat) : Nat := 64 - blen x

/-- The XOR-cancellation loop of `pdivmod64`: while the remainder's leading
bit is at or above the divisor's leading bit, XOR in a shifted copy of the
divisor and set the matching quotient bit.  The loop runs at most 64 times,
so fuel 64 suffices (proved below). -/
def pdivmodLoop (b : Nat) : Nat → Nat → Nat → Nat × Nat
  | 0, q, r => (q, r)
  | fuel + 1, q, r =>
    if leadingZeros64 r ≤ leadingZeros64 b then
      pdivmodLoop b fuel
        (q ^^^ mask64 (1 <<< (leadingZeros64 b - leadingZeros64 r)))
        (r ^^^ mask64 (b <<< (leadingZeros64 b - leadingZeros64 r)))
    else (q, r)

/-- Software polynomial division over GF(2): quotient and remainder of
`a ÷ b`, or `None` when `b` is zero. -/
def pdivmod64 (a b : Nat) : Option (Nat × Nat) :=
  if b = 0 then none
  else some (pdivmodLoop b 64 0 a)

/-- Quotient-only entry point (the source unwraps; here the failure is an
explicit `none`). -/
def pdiv64 (a b : Nat) : Option Nat := (pdivmod64 a b).map Prod.fst

/-- Remainder-only entry point. -/
def pmod64 (a b : Nat) : Option Nat := (pdivmod64 a b).map Prod.snd

/-- `u32::reverse_bits`: bit `i` of the input becomes bit `31 - i`. -/
def reverseBits32 (x : Nat) : Nat :=
  (List.range 32).foldl
    (fun acc i => acc ^^^ (if x.testBit i then 1 <<< (31 - i) else 0)) 0

/-- The CRC engine configuration: the generator polynomial `p`, the Barret
constant `b`, and the 32-bit bit-reversed forms of their low 32 bits. -/
structure Crc32 where
  p : Nat
  b : Nat
  p_r : Nat
  b_r : Nat
deriving DecidableEq

/-- Engine construction: `b = pdiv64(p << 32, p) as u32` (the shift wraps in
the 64-bit container), then the bit-reversed constants.  Division by the
zero polynomial fails, and the failure propagates. -/
def Crc32.new (p : Nat) : Option Crc32 :=
  (pdiv64 (mask64 (p <<< 32)) p).map fun b =>
    { p := p
      b := mask32 b
      p_r := reverseBits32 (mask32 p)
      b_r := reverseBits32 (mask32 b) }

/-- `u32::from_le_bytes` on a 4-byte chunk (chunks always have length 4;
other shapes are unreachable and mapped to 0). -/
def fromLeBytes4 : List Nat → Nat
  | [b0, b1, b2, b3] => b0 + 2 ^ 8 * b1 + 2 ^ 16 * b2 + 2 ^ 24 * b3
  | _ => 0

/-- `slice::chunks_exact(4)`: the list of complete 4-byte chunks, and the
remainder of fewer than 4 bytes. -/
def chunksExact4 : List Nat → List (List Nat) × List Nat
  | b0 :: b1 :: b2 :: b3 :: rest =>
    let cr := chunksExact4 rest
    ([b0, b1, b2, b3] :: cr.1, cr.2)
  | rest => ([], rest)

/-- The two chained carry-less multiplications shared by both loop bodies
of `crc32` (the Barret fold of a 32-bit value back into the CRC state). -/
def barretFold (c : Crc32) (x : Nat) : Nat :=
  let lo := (pmul32 x c.b_r).1
  let lh := pmul32 (mask32 (lo <<< 1) ^^^ x) c.p_r
  mask32 (lh.2 <<< 1) ||| (lh.1 >>> 31)

/-- Body of the 4-byte bulk loop of `crc32`. -/
def wordStep (c : Crc32) (crc : Nat) (w : List Nat) : Nat :=
  barretFold c (crc ^^^ fromLeBytes4 w)

/-- Body of the byte-wise tail loop of `crc32`. -/
def byteStep (c : Crc32) (crc b : Nat) : Nat :=
  let crc := crc ^^^ b
  (crc >>> 8) ^^^ barretFold c (mask32 (crc <<< 24))

/-- The folding core of `crc32` (between the entry and exit inversions):
process 4-byte chunks first, then the remaining bytes. -/
def crcRaw (c : Crc32) (crc : Nat) (data : List Nat) : Nat :=
  ((chunksExact4 data).2).foldl (byteStep c)
    (((chunksExact4 data).1).foldl (wordStep c) crc)

/-- `Crc32::crc32`: invert, fold all bytes, invert. -/
def Crc32.crc32 (c : Crc32) (crc : Nat) (data : List Nat) : Nat :=
  crcRaw c (crc ^^^ 0xffffffff) data ^^^ 0xffffffff

/-- The mathematical carry-less (GF(2) polynomial) product of two values of
up to 64 bits: the XOR of the shifted copies `b <<< i` over all set bits `i`
of `a`.  This is the reference definition the multiplier is compared to. -/
def clmul (a b : Nat) : Nat :=
  (List.range 64).foldl (fun acc i => acc ^^^ (if a.testBit i then b <<< i else 0)) 0

/-- Modelled from the spec: "bit `k` of the result (0 ≤ k < 2N) is the
parity (XOR-sum) of all `a_i · b_j` with `i + j = k`". -/
def pmulSpecBit (a b k : Nat) : Bool :=
  decide (((List.range (k + 1)).countP fun i => a.testBit i && b.testBit (k - i)) % 2 = 1)

/-! ### Basic bit-level toolkit -/

theorem lt_two_pow_of_testBit_false {x n : Nat}
    (h : ∀ i, n ≤ i → x.testBit i = false) : x < 2 ^ n := by
  have hx : x = x % 2 ^ n := by
    apply Nat.eq_of_testBit_eq
    intro i
    rw [Nat.testBit_mod_two_pow]
    by_cases hi : i < n
    · simp [hi]
    · simp [hi, h i (Nat.le_of_not_lt hi)]
  rw [hx]
  exact Nat.mod_lt _ (Nat.pos_pow_of_pos n (by omega))

theorem xor_mod_two_pow (x y n : Nat) :
    (x ^^^ y) % 2 ^ n = x % 2 ^ n ^^^ y % 2 ^ n := by
  apply Nat.eq_of_testBit_eq
  intro i
  simp [Nat.testBit_mod_two_pow, Nat.testBit_xor]
  by_cases hi : i < n <;> simp [hi]

theorem xor_shiftRight (x y n : Nat) :
    (x ^^^ y) >>> n = x >>> n ^^^ y >>> n := by
  apply Nat.eq_of_testBit_eq
  intro i
  simp [Nat.testBit_shiftRight, Nat.testBit_xor]

theorem lor_lt_two_pow {x y n : Nat} (hx : x < 2 ^ n) (hy : y < 2 ^ n) :
    x ||| y < 2 ^ n := by
  apply lt_two_pow_of_testBit_false
  intro i hi
  rw [Nat.testBit_lor, Nat.testBit_lt_two_pow (Nat.lt_of_lt_of_le hx (Nat.pow_le_pow_right (by omega) hi)),
    Nat.testBit_lt_two_pow (Nat.lt_of_lt_of_le hy (Nat.pow_le_pow_right (by omega) hi))]
  rfl

/-! ### XOR-fold machinery -/

theorem foldl_xor_eq (f : Nat → Nat) (l : List Nat) (x : Nat) :
    l.foldl (fun acc i => acc ^^^ f i) x = x ^^^ l.foldl (fun acc i => acc ^^^ f i) 0 := by
  induction l generalizing x with
  | nil => simp
  | cons i l ih =>
    simp only [List.foldl_cons]
    rw [ih (x ^^^ f i), ih (0 ^^^ f i), Nat.zero_xor, Nat.xor_assoc]

theorem foldl_xor_congr {f g : Nat → Nat} {l : List Nat} (x : Nat)
    (h : ∀ i ∈ l, f i = g i) :
    l.foldl (fun acc i => acc ^^^ f i) x = l.foldl (fun acc i => acc ^^^ g i) x := by
  induction l generalizing x with
  | nil => rfl
  | cons i l ih =>
    simp only [List.foldl_cons]
    rw [h i (by simp), ih _ fun j hj => h j (by simp [hj])]

theorem testBit_foldl_xor (f : Nat → Nat) (l : List Nat) (k : Nat) :
    (l.foldl (fun acc i => acc ^^^ f i) 0).testBit k =
      decide ((l.countP fun i => (f i).testBit k) % 2 = 1) := by
  induction l with
  | nil => simp
  | cons i l ih =>
    simp only [List.foldl_cons, Nat.zero_xor]
    rw [foldl_xor_eq, Nat.testBit_xor, ih, List.countP_cons]
    by_cases h : (f i).testBit k <;>
      rcases Nat.mod_two_eq_zero_or_one (l.countP fun j => (f j).testBit k) with h2 | h2 <;>
      simp [h, h2] <;> omega

theorem countP_parity_xor {p q r : Nat → Bool} (l : List Nat)
    (h : ∀ i ∈ l, p i = (q i ^^ r i)) :
    l.countP p % 2 = (l.countP q + l.countP r) % 2 := by
  induction l with
  | nil => rfl
  | cons i l ih =>
    simp only [List.countP_cons]
    have hi := h i (by simp)
    have ihl := ih fun j hj => h j (by simp [hj])
    cases hq : q i <;> cases hr : r i <;> simp [hi, hq, hr] <;> omega

theorem countP_range_eq_of_false {p : Nat → Bool} {m n : Nat} (h : n ≤ m)
    (hz : ∀ i, n ≤ i → p i = false) :
    (List.range m).countP p = (List.range n).countP p := by
  induction m with
  | zero =>
    have hn : n = 0 := by omega
    rw [hn]
  | succ m ih =>
    rcases Nat.lt_or_ge n (m + 1) with hm | hm
    · rw [List.range_succ, List.countP_append, ih (by omega)]
      simp [hz m (by omega)]
    · have : n = m + 1 := by omega
      rw [this]

theorem countP_range_single {p : Nat → Bool} {n d : Nat} (hd : d < n)
    (h : ∀ i, i < n → (p i = true ↔ i = d)) :
    (List.range n).countP p = 1 := by
  have h1 : (List.range n).countP p = (List.range n).countP (fun i => i == d) := by
    apply List.countP_congr
    intro i hi
    rw [List.mem_range] at hi
    simp only [beq_iff_eq]
    exact h i hi
  rw [h1]
  have h2 : (List.range n).countP (fun i => i == d) = (List.range n).count d := by
    simp [List.count]
  rw [h2]
  exact List.count_eq_one_of_mem (List.nodup_range n) (List.mem_range.mpr hd)

/-! ### Characterization of the software carry-less multiplier -/

theorem mask64_lt (x : Nat) : mask64 x < 2 ^ 64 := Nat.mod_lt _ (by norm_num)

theorem mask32_lt (x : Nat) : mask32 x < 2 ^ 32 := Nat.mod_lt _ (by norm_num)

theorem sar64_63_eq {x : Nat} (hx : x < 2 ^ 64) :
    sar64 x 63 = if x.testBit 63 then 2 ^ 64 - 1 else 0 := by
  unfold sar64
  have hdiv : x >>> 63 = x / 2 ^ 63 := Nat.shiftRight_eq_div_pow x 63
  have hlt : x / 2 ^ 63 < 2 := by
    apply Nat.div_lt_iff_lt_mul (by norm_num) |>.mpr
    calc x < 2 ^ 64 := hx
    _ = 2 ^ 63 * 2 := by norm_num
  cases hb : x.testBit 63 with
  | true =>
    have h1 : x / 2 ^ 63 = 1 := by
      have := of_decide_eq_true (Nat.testBit_to_div_mod ▸ hb)
      omega
    rw [if_pos rfl, if_pos rfl, hdiv, h1]
    decide
  | false =>
    have h0 : x / 2 ^ 63 = 0 := by
      have := of_decide_eq_false (Nat.testBit_to_div_mod ▸ hb)
      omega
    rw [if_neg (by simp), if_neg (by simp), hdiv, h0]

theorem mask64_shiftLeft_testBit63 (a i : Nat) (hi : i < 64) :
    (mask64 (a <<< (64 - 1 - i))).testBit 63 = a.testBit i := by
  unfold mask64
  rw [Nat.testBit_mod_two_pow, Nat.testBit_shiftLeft]
  have h1 : (63 : Nat) < 64 := by omega
  have h2 : 64 - 1 - i ≤ 63 := by omega
  have h3 : 63 - (64 - 1 - i) = i := by omega
  simp [h1, h2, h3, Nat.le_of_lt_succ]

theorem all_ones_and {t : Nat} (ht : t < 2 ^ 64) : (2 ^ 64 - 1) &&& t = t := by
  rw [Nat.land_comm, Nat.and_pow_two_sub_one_eq_mod, Nat.mod_eq_of_lt ht]

theorem foldl_pair (f1 f2 : Nat → Nat) (l : List Nat) (s : Nat × Nat) :
    l.foldl (fun s i => (s.1 ^^^ f1 i, s.2 ^^^ f2 i)) s =
      (l.foldl (fun a i => a ^^^ f1 i) s.1, l.foldl (fun a i => a ^^^ f2 i) s.2) := by
  induction l generalizing s with
  | nil => rfl
  | cons i l ih => simp only [List.foldl_cons]; exact ih _

theorem foldl_xor_mod (g : Nat → Nat) (l : List Nat) (n : Nat) :
    l.foldl (fun acc i => acc ^^^ g i % 2 ^ n) 0 =
      (l.foldl (fun acc i => acc ^^^ g i) 0) % 2 ^ n := by
  induction l with
  | nil => simp
  | cons i l ih =>
    simp only [List.foldl_cons, Nat.zero_xor]
    rw [foldl_xor_eq _ _ (g i % 2 ^ n), foldl_xor_eq _ _ (g i), ih, xor_mod_two_pow]

theorem foldl_xor_shiftRight (g : Nat → Nat) (l : List Nat) (n : Nat) :
    l.foldl (fun acc i => acc ^^^ g i >>> n) 0 =
      (l.foldl (fun acc i => acc ^^^ g i) 0) >>> n := by
  induction l with
  | nil => simp
  | cons i l ih =>
    simp only [List.foldl_cons, Nat.zero_xor]
    rw [foldl_xor_eq _ _ (g i >>> n), foldl_xor_eq _ _ (g i), ih, xor_shiftRight]

theorem shiftLeft_shiftRight63 (b i : Nat) (hi : i ≤ 63) :
    (b <<< i) >>> 63 = b >>> (63 - i) := by
  rw [Nat.shiftLeft_eq, Nat.shiftRight_eq_div_pow, Nat.shiftRight_eq_div_pow]
  have h : (2 : Nat) ^ 63 = 2 ^ i * 2 ^ (63 - i) := by
    rw [← pow_add]; congr 1; omega
  rw [h, ← Nat.div_div_eq_div_mul, Nat.mul_div_cancel _ (Nat.pos_pow_of_pos i (by omega))]

theorem pmul64_eq (a b : Nat) (hb : b < 2 ^ 64) :
    pmul64 a b = (clmul a b % 2 ^ 64, clmul a b >>> 64) := by
  have hbody : (fun (s : Nat × Nat) i =>
      let mask := sar64 (mask64 (a <<< (64 - 1 - i))) (64 - 1)
      (s.1 ^^^ (mask &&& mask64 (b <<< i)), s.2 ^^^ (mask &&& (b >>> (64 - 1 - i))))) =
      (fun (s : Nat × Nat) i =>
        (s.1 ^^^ (sar64 (mask64 (a <<< (64 - 1 - i))) 63 &&& mask64 (b <<< i)),
         s.2 ^^^ (sar64 (mask64 (a <<< (64 - 1 - i))) 63 &&& (b >>> (64 - 1 - i))))) := rfl
  unfold pmul64
  simp only [hbody, foldl_pair]
  have hf1 : ∀ i ∈ List.range 64,
      (sar64 (mask64 (a <<< (64 - 1 - i))) 63 &&& mask64 (b <<< i)) =
        (if a.testBit i then b <<< i else 0) % 2 ^ 64 := by
    intro i hi
    rw [List.mem_range] at hi
    rw [sar64_63_eq (mask64_lt _), mask64_shiftLeft_testBit63 a i hi]
    by_cases h : a.testBit i
    · simp only [h, if_true]
      exact all_ones_and (mask64_lt _)
    · simp [h]
  have hf2 : ∀ i ∈ List.range 64,
      (sar64 (mask64 (a <<< (64 - 1 - i))) 63 &&& (b >>> (64 - 1 - i))) =
        (if a.testBit i then b <<< i else 0) >>> 63 := by
    intro i hi
    rw [List.mem_range] at hi
    rw [sar64_63_eq (mask64_lt _), mask64_shiftLeft_testBit63 a i hi]
    by_cases h : a.testBit i
    · simp only [h, if_true]
      have hr : b >>> (64 - 1 - i) < 2 ^ 64 := by
        rw [Nat.shiftRight_eq_div_pow]
        exact Nat.lt_of_le_of_lt (Nat.div_le_self _ _) hb
      rw [all_ones_and hr, show 64 - 1 - i = 63 - i from by omega,
        shiftLeft_shiftRight63 b i (by omega)]
    · simp [h]
  rw [foldl_xor_congr 0 hf1, foldl_xor_congr 0 hf2, foldl_xor_mod, foldl_xor_shiftRight]
  show (clmul a b % 2 ^ 64, clmul a b >>> 63 >>> 1) = _
  rw [← Nat.shiftRight_add]

theorem clmul_testBit (a b k : Nat) :
    (clmul a b).testBit k =
      decide (((List.range 64).countP fun i =>
        a.testBit i && (decide (i ≤ k) && b.testBit (k - i))) % 2 = 1) := by
  unfold clmul
  rw [testBit_foldl_xor]
  have hc : ((List.range 64).countP fun i => (if a.testBit i then b <<< i else 0).testBit k) =
      ((List.range 64).countP fun i => a.testBit i && (decide (i ≤ k) && b.testBit (k - i))) := by
    apply List.countP_congr
    intro i _
    by_cases h : a.testBit i
    · simp [h, Nat.testBit_shiftLeft, ge_iff_le]
    · simp [h]
  rw [hc]

theorem clmul_testBit_false {a b m n : Nat} (ha : a < 2 ^ m) (hb : b < 2 ^ n)
    (k : Nat) (hk : m + n ≤ k + 1) : (clmul a b).testBit k = false := by
  rw [clmul_testBit]
  have hc : ((List.range 64).countP fun i =>
      a.testBit i && (decide (i ≤ k) && b.testBit (k - i))) = 0 := by
    rw [List.countP_eq_zero]
    intro i _
    by_cases hai : a.testBit i
    · have him : i < m := by
        by_contra hcon
        rw [Nat.testBit_lt_two_pow (Nat.lt_of_lt_of_le ha
          (Nat.pow_le_pow_right (by omega) (Nat.le_of_not_lt hcon)))] at hai
        exact Bool.false_ne_true hai
      by_cases hik : i ≤ k
      · have hbk : b.testBit (k - i) = false := by
          apply Nat.testBit_lt_two_pow
          exact Nat.lt_of_lt_of_le hb (Nat.pow_le_pow_right (by omega) (by omega))
        simp [hbk]
      · simp [hik]
    · simp [hai]
  simp [hc]

theorem clmul_lt {a b m n : Nat} (ha : a < 2 ^ m) (hb : b < 2 ^ n) :
    clmul a b < 2 ^ (m + n - 1) := by
  apply lt_two_pow_of_testBit_false
  intro i hi
  exact clmul_testBit_false ha hb i (by omega)

theorem pmul32_eq (a b : Nat) (ha : a < 2 ^ 32) (hb : b < 2 ^ 32) :
    pmul32 a b = (clmul a b % 2 ^ 32, clmul a b >>> 32) := by
  have hcl : clmul a b < 2 ^ 63 := clmul_lt ha hb
  have h64 : clmul a b % 2 ^ 64 = clmul a b := Nat.mod_eq_of_lt (by omega)
  have hsh : clmul a b >>> 32 < 2 ^ 32 := by
    rw [Nat.shiftRight_eq_div_pow]
    apply Nat.div_lt_iff_lt_mul (by norm_num) |>.mpr
    calc clmul a b < 2 ^ 63 := hcl
    _ ≤ 2 ^ 32 * 2 ^ 32 := by norm_num
  show (mask32 (pmul64 a b).1, mask32 ((pmul64 a b).1 >>> 32)) = _
  rw [pmul64_eq a b (by omega)]
  dsimp only
  rw [h64]
  unfold mask32
  rw [Nat.mod_eq_of_lt hsh]

/-! ### Bit length and the division loop -/

theorem xor_cancel_pair (a c y : Nat) : (a ^^^ c) ^^^ (y ^^^ c) = a ^^^ y := by
  rw [Nat.xor_comm y c, Nat.xor_assoc, ← Nat.xor_assoc c c y, Nat.xor_self, Nat.zero_xor]

theorem blen_zero : blen 0 = 0 := rfl

theorem blenAux_zero (fuel : Nat) : blenAux fuel 0 = 0 := by
  cases fuel <;> rfl

theorem blenAux_le (fuel x : Nat) : blenAux fuel x ≤ fuel := by
  induction fuel generalizing x with
  | zero => simp [blenAux]
  | succ fuel ih =>
    unfold blenAux
    by_cases h : x = 0
    · simp [h]
    · simp only [h, if_false]
      exact Nat.succ_le_succ (ih _)

theorem blen_le_64 (x : Nat) : blen x ≤ 64 := blenAux_le 64 x

theorem blenAux_lt_pow {fuel x : Nat} (hx : x < 2 ^ fuel) : x < 2 ^ blenAux fuel x := by
  induction fuel generalizing x with
  | zero => simpa [blenAux] using hx
  | succ fuel ih =>
    unfold blenAux
    by_cases h : x = 0
    · simp [h]
    · simp only [h, if_false]
      have hdiv : x / 2 < 2 ^ fuel := by
        rw [pow_succ] at hx
        omega
      have := ih hdiv
      rw [pow_succ]
      omega

theorem blenAux_pow_le {fuel x : Nat} (hne : x ≠ 0) (hx : x < 2 ^ fuel) :
    2 ^ (blenAux fuel x - 1) ≤ x := by
  induction fuel generalizing x with
  | zero =>
    rw [pow_zero] at hx
    omega
  | succ fuel ih =>
    unfold blenAux
    simp only [hne, if_false]
    by_cases h2 : x / 2 = 0
    · rw [h2, blenAux_zero]
      simpa using Nat.one_le_iff_ne_zero.mpr hne
    · have hdiv : x / 2 < 2 ^ fuel := by
        rw [pow_succ] at hx
        omega
      have hih := ih h2 hdiv
      have hpos : 1 ≤ blenAux fuel (x / 2) := by
        cases fuel with
        | zero =>
          rw [pow_zero] at hdiv
          omega
        | succ f =>
          unfold blenAux
          simp only [h2, if_false]
          omega
      have hstep : blenAux fuel (x / 2) + 1 - 1 = blenAux fuel (x / 2) - 1 + 1 := by omega
      rw [hstep, pow_succ]
      omega

theorem blen_lt_pow {x : Nat} (hx : x < 2 ^ 64) : x < 2 ^ blen x :=
  blenAux_lt_pow hx

theorem blen_pow_le {x : Nat} (hne : x ≠ 0) (hx : x < 2 ^ 64) : 2 ^ (blen x - 1) ≤ x :=
  blenAux_pow_le hne hx

theorem blen_le_iff {x : Nat} (hx : x < 2 ^ 64) (n : Nat) : blen x ≤ n ↔ x < 2 ^ n := by
  constructor
  · intro h
    exact Nat.lt_of_lt_of_le (blen_lt_pow hx) (Nat.pow_le_pow_right (by omega) h)
  · intro h
    by_cases hne : x = 0
    · rw [hne, blen_zero]; omega
    · by_contra hcon
      have h1 : n ≤ blen x - 1 := by omega
      have := Nat.le_trans (Nat.pow_le_pow_right (by omega) h1) (blen_pow_le hne hx)
      omega

theorem blen_pos {x : Nat} (hne : x ≠ 0) (hx : x < 2 ^ 64) : 1 ≤ blen x := by
  by_contra hcon
  have : blen x ≤ 0 := by omega
  rw [blen_le_iff hx 0] at this
  omega

theorem blen_eq_of_bounds {x n : Nat} (h1 : 2 ^ (n - 1) ≤ x) (h2 : x < 2 ^ n)
    (hn : 1 ≤ n) (hn64 : n ≤ 64) : blen x = n := by
  have hx : x < 2 ^ 64 := Nat.lt_of_lt_of_le h2 (Nat.pow_le_pow_right (by omega) hn64)
  have hle : blen x ≤ n := (blen_le_iff hx n).mpr h2
  have hgt : ¬ blen x ≤ n - 1 := by
    rw [blen_le_iff hx (n - 1)]
    omega
  omega

theorem testBit_blen {x : Nat} (hne : x ≠ 0) (hx : x < 2 ^ 64) :
    x.testBit (blen x - 1) = true := by
  have h1 := blen_pow_le hne hx
  have h2 := blen_lt_pow hx
  have hp := blen_pos hne hx
  rw [Nat.testBit_to_div_mod]
  have hpow : 2 ^ blen x = 2 ^ (blen x - 1) * 2 := by
    rw [← pow_succ]
    congr 1
    omega
  rw [hpow] at h2
  have hd1 : 1 ≤ x / 2 ^ (blen x - 1) := (Nat.le_div_iff_mul_le (Nat.pos_pow_of_pos _ (by omega))).mpr (by omega)
  have hd2 : x / 2 ^ (blen x - 1) < 2 := Nat.div_lt_iff_lt_mul (Nat.pos_pow_of_pos _ (by omega)) |>.mpr (by omega)
  have : x / 2 ^ (blen x - 1) = 1 := by omega
  simp [this]

theorem drop_leading {x n : Nat} (h1 : 2 ^ (n - 1) ≤ x) (h2 : x < 2 ^ n) (hn : 1 ≤ n) :
    x ^^^ 2 ^ (n - 1) < 2 ^ (n - 1) := by
  apply lt_two_pow_of_testBit_false
  intro i hi
  rw [Nat.testBit_xor, Nat.testBit_two_pow]
  rcases Nat.eq_or_lt_of_le hi with he | hlt
  · have hbit : x.testBit (n - 1) = true := by
      rw [Nat.testBit_to_div_mod]
      have hpow : 2 ^ n = 2 ^ (n - 1) * 2 := by
        rw [← pow_succ]; congr 1; omega
      have hd1 : 1 ≤ x / 2 ^ (n - 1) := (Nat.le_div_iff_mul_le (Nat.pos_pow_of_pos _ (by omega))).mpr (by omega)
      have hd2 : x / 2 ^ (n - 1) < 2 := Nat.div_lt_iff_lt_mul (Nat.pos_pow_of_pos _ (by omega)) |>.mpr (by omega)
      have : x / 2 ^ (n - 1) = 1 := by omega
      simp [this]
    rw [← he, hbit]
    simp
  · have hbx : x.testBit i = false :=
      Nat.testBit_lt_two_pow (Nat.lt_of_lt_of_le h2 (Nat.pow_le_pow_right (by omega) (by omega)))
    rw [hbx]
    simp
    omega

theorem blen_xor_lt {x y : Nat} (hne : x ≠ 0) (hx : x < 2 ^ 64) (hy : y < 2 ^ 64)
    (heq : blen x = blen y) : blen (x ^^^ y) < blen x := by
  set n := blen x with hn
  have hnpos : 1 ≤ n := blen_pos hne hx
  have hyne : y ≠ 0 := by
    intro h0
    rw [h0, blen_zero] at heq
    omega
  have hx1 := blen_pow_le hne hx
  have hx2 := blen_lt_pow hx
  have hy1 := blen_pow_le hyne hy
  have hy2 := blen_lt_pow hy
  rw [← heq] at hy1 hy2
  have hsplit : x ^^^ y = (x ^^^ 2 ^ (n - 1)) ^^^ (y ^^^ 2 ^ (n - 1)) :=
    (xor_cancel_pair x (2 ^ (n - 1)) y).symm
  have hlt : x ^^^ y < 2 ^ (n - 1) := by
    rw [hsplit]
    exact Nat.xor_lt_two_pow (drop_leading hx1 hx2 hnpos) (drop_leading hy1 hy2 hnpos)
  have hxylt : x ^^^ y < 2 ^ 64 := Nat.xor_lt_two_pow hx hy
  have := (blen_le_iff hxylt (n - 1)).mpr hlt
  omega

theorem blen_shiftLeft {b d : Nat} (hb : b ≠ 0) (hb64 : b < 2 ^ 64)
    (hd : blen b + d ≤ 64) : blen (b <<< d) = blen b + d := by
  rw [Nat.shiftLeft_eq]
  apply blen_eq_of_bounds
  · have h1 := blen_pow_le hb hb64
    have hpow : 2 ^ (blen b + d - 1) = 2 ^ (blen b - 1) * 2 ^ d := by
      rw [← pow_add]
      congr 1
      have := blen_pos hb hb64
      omega
    rw [hpow]
    exact Nat.mul_le_mul_right _ h1
  · have h2 := blen_lt_pow hb64
    calc b * 2 ^ d < 2 ^ blen b * 2 ^ d :=
          (Nat.mul_lt_mul_right (Nat.pos_pow_of_pos _ (by omega))).mpr h2
    _ = 2 ^ (blen b + d) := by rw [← pow_add]
  · have := blen_pos hb hb64
    omega
  · exact hd

/-! ### Algebraic facts about the reference product -/

theorem foldl_xor_zero (l : List Nat) (x : Nat) :
    l.foldl (fun acc (_ : Nat) => acc ^^^ 0) x = x := by
  induction l generalizing x with
  | nil => rfl
  | cons i l ih =>
    simp only [List.foldl_cons]
    rw [Nat.xor_zero]
    exact ih x

theorem foldl_xor_single {f : Nat → Nat} {l : List Nat} {d : Nat}
    (hl : l.Nodup) (hd : d ∈ l) (hz : ∀ i ∈ l, i ≠ d → f i = 0) :
    l.foldl (fun acc i => acc ^^^ f i) 0 = f d := by
  induction l with
  | nil => cases hd
  | cons i l ih =>
    rw [List.nodup_cons] at hl
    simp only [List.foldl_cons, Nat.zero_xor]
    rw [foldl_xor_eq]
    rcases List.mem_cons.mp hd with he | hm
    · subst he
      have : l.foldl (fun acc i => acc ^^^ f i) 0 = 0 := by
        have hcongr := foldl_xor_congr (f := f) (g := fun _ => 0) 0
          (fun j hj => hz j (by simp [hj]) (fun hc => hl.1 (hc ▸ hj)))
        rw [hcongr]
        exact foldl_xor_zero l 0
      rw [this, Nat.xor_zero]
    · have hi : i ≠ d := fun hc => hl.1 (hc ▸ hm)
      rw [hz i (by simp) hi, Nat.zero_xor]
      exact ih hl.2 hm fun j hj hjd => hz j (by simp [hj]) hjd

theorem clmul_zero_left (b : Nat) : clmul 0 b = 0 := by
  unfold clmul
  rw [foldl_xor_congr (g := fun _ => 0) 0 (by intro i _; simp)]
  exact foldl_xor_zero _ 0

theorem clmul_two_pow (d b : Nat) (hd : d < 64) : clmul (2 ^ d) b = b <<< d := by
  unfold clmul
  have h := foldl_xor_single (f := fun i => if (2 ^ d).testBit i then b <<< i else 0)
    (l := List.range 64) (d := d) (List.nodup_range 64) (List.mem_range.mpr hd) (by
      intro i _ hi
      simp only [Nat.testBit_two_pow]
      simp [Ne.symm hi])
  rw [h]
  simp [Nat.testBit_two_pow]

theorem clmul_one_left (b : Nat) : clmul 1 b = b := by
  have := clmul_two_pow 0 b (by omega)
  simpa using this

theorem clmul_xor_left (x y b : Nat) :
    clmul (x ^^^ y) b = clmul x b ^^^ clmul y b := by
  apply Nat.eq_of_testBit_eq
  intro k
  rw [Nat.testBit_xor, clmul_testBit, clmul_testBit, clmul_testBit]
  have hp := countP_parity_xor (l := List.range 64)
    (p := fun i => (x ^^^ y).testBit i && (decide (i ≤ k) && b.testBit (k - i)))
    (q := fun i => x.testBit i && (decide (i ≤ k) && b.testBit (k - i)))
    (r := fun i => y.testBit i && (decide (i ≤ k) && b.testBit (k - i)))
    (by
      intro i _
      simp only [Nat.testBit_xor]
      cases x.testBit i <;> cases y.testBit i <;>
        cases (decide (i ≤ k) && b.testBit (k - i)) <;> rfl)
  rcases Nat.mod_two_eq_zero_or_one ((List.range 64).countP
      fun i => x.testBit i && (decide (i ≤ k) && b.testBit (k - i))) with h1 | h1 <;>
    rcases Nat.mod_two_eq_zero_or_one ((List.range 64).countP
      fun i => y.testBit i && (decide (i ≤ k) && b.testBit (k - i))) with h2 | h2 <;>
    · rw [hp]
      simp [h1, h2]
      omega

/-! ### The division loop: invariant, termination, and correctness -/

theorem pdivmodLoop_exit {b r : Nat} (hc : ¬ leadingZeros64 r ≤ leadingZeros64 b)
    (fuel q : Nat) : pdivmodLoop b fuel q r = (q, r) := by
  cases fuel with
  | zero => rfl
  | succ fuel => simp only [pdivmodLoop, if_neg hc]

theorem loop_cond_iff {r b : Nat} :
    leadingZeros64 r ≤ leadingZeros64 b ↔ blen b ≤ blen r := by
  unfold leadingZeros64
  have h1 := blen_le_64 r
  have h2 := blen_le_64 b
  omega

theorem div_step_facts {b : Nat} (hb : b ≠ 0) (hb64 : b < 2 ^ 64) {r : Nat}
    (hr : r < 2 ^ 64) (hc : leadingZeros64 r ≤ leadingZeros64 b) :
    let d := leadingZeros64 b - leadingZeros64 r
    d = blen r - blen b ∧ d < 64 ∧ r ≠ 0 ∧ b <<< d < 2 ^ 64 ∧
      mask64 (b <<< d) = b <<< d ∧ blen (b <<< d) = blen r ∧
      blen (r ^^^ b <<< d) < blen r ∧ r ^^^ b <<< d < 2 ^ 64 := by
  intro d
  have hbl : blen b ≤ blen r := loop_cond_iff.mp hc
  have hbp := blen_pos hb hb64
  have hr64 := blen_le_64 r
  have hb64l := blen_le_64 b
  have hd : d = blen r - blen b := by
    show leadingZeros64 b - leadingZeros64 r = _
    unfold leadingZeros64
    omega
  have hrne : r ≠ 0 := by
    intro h0
    rw [h0, blen_zero] at hbl
    omega
  have hble : blen (b <<< d) = blen r := by
    rw [blen_shiftLeft hb hb64 (by omega)]
    omega
  have hshl : b <<< d < 2 ^ 64 := by
    rw [Nat.shiftLeft_eq]
    calc b * 2 ^ d < 2 ^ blen b * 2 ^ d :=
          (Nat.mul_lt_mul_right (Nat.pos_pow_of_pos _ (by omega))).mpr (blen_lt_pow hb64)
    _ = 2 ^ (blen b + d) := by rw [← pow_add]
    _ ≤ 2 ^ 64 := Nat.pow_le_pow_right (by omega) (by omega)
  refine ⟨hd, by omega, hrne, hshl, Nat.mod_eq_of_lt hshl, hble, ?_, Nat.xor_lt_two_pow hr hshl⟩
  exact blen_xor_lt hrne hr hshl hble.symm

theorem pdivmodLoop_spec {b : Nat} (hb : b ≠ 0) (hb64 : b < 2 ^ 64) :
    ∀ fuel q r, r < 2 ^ 64 → blen r < blen b + fuel →
      clmul (pdivmodLoop b fuel q r).1 b ^^^ (pdivmodLoop b fuel q r).2 = clmul q b ^^^ r ∧
      blen (pdivmodLoop b fuel q r).2 < blen b ∧ (pdivmodLoop b fuel q r).2 < 2 ^ 64 := by
  intro fuel
  induction fuel with
  | zero =>
    intro q r hr hblen
    refine ⟨rfl, ?_, hr⟩
    show blen r < blen b
    omega
  | succ fuel ih =>
    intro q r hr hblen
    by_cases hc : leadingZeros64 r ≤ leadingZeros64 b
    · obtain ⟨hd, hd64, hrne, hshl, hmask, hble, hdec, hlt⟩ := div_step_facts hb hb64 hr hc
      have hstep : pdivmodLoop b (fuel + 1) q r =
          pdivmodLoop b fuel
            (q ^^^ mask64 (1 <<< (leadingZeros64 b - leadingZeros64 r)))
            (r ^^^ mask64 (b <<< (leadingZeros64 b - leadingZeros64 r))) := by
        simp only [pdivmodLoop, if_pos hc]
      have h1m : mask64 (1 <<< (leadingZeros64 b - leadingZeros64 r)) =
          2 ^ (leadingZeros64 b - leadingZeros64 r) := by
        rw [Nat.shiftLeft_eq, Nat.one_mul]
        exact Nat.mod_eq_of_lt (Nat.pow_lt_pow_right (by omega) (by omega))
      rw [hstep, hmask, h1m]
      obtain ⟨hid, hdeg, hfin⟩ := ih (q ^^^ 2 ^ (leadingZeros64 b - leadingZeros64 r))
        (r ^^^ b <<< (leadingZeros64 b - leadingZeros64 r)) hlt (by omega)
      refine ⟨?_, hdeg, hfin⟩
      rw [hid, clmul_xor_left, clmul_two_pow _ b hd64]
      exact xor_cancel_pair (clmul q b) (b <<< (leadingZeros64 b - leadingZeros64 r)) r
    · rw [pdivmodLoop_exit hc]
      have hblt : blen r < blen b := by
        rw [loop_cond_iff] at hc
        omega
      exact ⟨rfl, hblt, hr⟩

theorem pdivmodLoop_fuel_mono {b : Nat} (hb : b ≠ 0) (hb64 : b < 2 ^ 64) :
    ∀ fuel q r, r < 2 ^ 64 → blen r < blen b + fuel →
      ∀ k, pdivmodLoop b fuel q r = pdivmodLoop b (fuel + k) q r := by
  intro fuel
  induction fuel with
  | zero =>
    intro q r hr hblen k
    have hc : ¬ leadingZeros64 r ≤ leadingZeros64 b := by
      rw [loop_cond_iff]
      omega
    rw [pdivmodLoop_exit hc, pdivmodLoop_exit hc]
  | succ fuel ih =>
    intro q r hr hblen k
    by_cases hc : leadingZeros64 r ≤ leadingZeros64 b
    · obtain ⟨hd, hd64, hrne, hshl, hmask, hble, hdec, hlt⟩ := div_step_facts hb hb64 hr hc
      have hsucc : fuel + 1 + k = (fuel + k) + 1 := by omega
      rw [hsucc]
      simp only [pdivmodLoop, if_pos hc]
      rw [hmask]
      exact ih _ _ hlt (by omega) k
    · rw [pdivmodLoop_exit hc, pdivmodLoop_exit hc]

/-- C3: for every 64-bit `a` and nonzero 64-bit `b`, the GF(2) carry-less
product of `pdiv64 a b` and `b`, XORed with `pmod64 a b`, equals `a`, and
the degree (bit length) of `pmod64 a b` is strictly below that of `b`. -/
theorem pdivmod64_correct (a b : Nat) (ha : a < 2 ^ 64) (hb : b ≠ 0) (hb64 : b < 2 ^ 64) :
    ∃ q r, pdiv64 a b = some q ∧ pmod64 a b = some r ∧
      clmul q b ^^^ r = a ∧ blen r < blen b := by
  have hfuel : blen a < blen b + 64 := by
    have := blen_le_64 a
    have := blen_pos hb hb64
    omega
  obtain ⟨hid, hdeg, _⟩ := pdivmodLoop_spec hb hb64 64 0 a ha hfuel
  rw [clmul_zero_left, Nat.zero_xor] at hid
  refine ⟨(pdivmodLoop b 64 0 a).1, (pdivmodLoop b 64 0 a).2, ?_, ?_, hid, hdeg⟩
  · simp [pdiv64, pdivmod64, hb]
  · simp [pmod64, pdivmod64, hb]

/-- C3 witness: the division identity evaluated at a concrete pair. -/
theorem pdivmod64_correct_witness :
    ((0xdeadbeefcafebabe : Nat) < 2 ^ 64 ∧ (0x104c11db7 : Nat) ≠ 0 ∧
      (0x104c11db7 : Nat) < 2 ^ 64) ∧
    (∃ q r, pdiv64 0xdeadbeefcafebabe 0x104c11db7 = some q ∧
      pmod64 0xdeadbeefcafebabe 0x104c11db7 = some r ∧
      clmul q 0x104c11db7 ^^^ r = 0xdeadbeefcafebabe ∧ blen r < blen 0x104c11db7) :=
  ⟨⟨by decide, by decide, by decide⟩,
    pdivmod64_correct 0xdeadbeefcafebabe 0x104c11db7 (by decide) (by decide) (by decide)⟩

/-- C9: the division loop terminates: whenever the loop guard holds, one
iteration strictly reduces the remainder's bit length (strictly increases
its leading-zero count), and consequently 64 iterations of fuel have
already converged: more fuel never changes the result. -/
theorem pdivmod64_terminates (a b : Nat) (ha : a < 2 ^ 64) (hb : b ≠ 0) (hb64 : b < 2 ^ 64) :
    (∀ r, r < 2 ^ 64 → leadingZeros64 r ≤ leadingZeros64 b →
      blen (r ^^^ mask64 (b <<< (leadingZeros64 b - leadingZeros64 r))) < blen r) ∧
    (∀ k, pdivmodLoop b 64 0 a = pdivmodLoop b (64 + k) 0 a) := by
  constructor
  · intro r hr hc
    obtain ⟨_, _, _, _, hmask, _, hdec, _⟩ := div_step_facts hb hb64 hr hc
    rw [hmask]
    exact hdec
  · intro k
    apply pdivmodLoop_fuel_mono hb hb64 64 0 a ha
    have := blen_le_64 a
    have := blen_pos hb hb64
    omega

/-- C9 witness: termination facts evaluated at a concrete dividend/divisor. -/
theorem pdivmod64_terminates_witness :
    ((0x123456789abcdef : Nat) < 2 ^ 64 ∧ (0x11edc6f41 : Nat) ≠ 0 ∧
      (0x11edc6f41 : Nat) < 2 ^ 64) ∧
    ((∀ r, r < 2 ^ 64 → leadingZeros64 r ≤ leadingZeros64 (0x11edc6f41 : Nat) →
      blen (r ^^^ mask64 ((0x11edc6f41 : Nat) <<<
        (leadingZeros64 0x11edc6f41 - leadingZeros64 r))) < blen r) ∧
    (∀ k, pdivmodLoop 0x11edc6f41 64 0 0x123456789abcdef =
      pdivmodLoop 0x11edc6f41 (64 + k) 0 0x123456789abcdef)) :=
  ⟨⟨by decide, by decide, by decide⟩,
    pdivmod64_terminates 0x123456789abcdef 0x11edc6f41 (by decide) (by decide) (by decide)⟩

/-! ### C2: the multiplier against the spec's parity definition -/

theorem count_transfer (a b k : Nat) (ha : a < 2 ^ 64) :
    ((List.range 64).countP fun i => a.testBit i && (decide (i ≤ k) && b.testBit (k - i))) =
      ((List.range (k + 1)).countP fun i => a.testBit i && b.testBit (k - i)) := by
  rcases Nat.lt_or_ge k 64 with hk | hk
  · have h1 : ((List.range 64).countP fun i => a.testBit i && (decide (i ≤ k) && b.testBit (k - i))) =
        ((List.range (k + 1)).countP fun i => a.testBit i && (decide (i ≤ k) && b.testBit (k - i))) := by
      apply countP_range_eq_of_false (by omega)
      intro i hik
      have : decide (i ≤ k) = false := by simp; omega
      simp [this]
    rw [h1]
    apply List.countP_congr
    intro i hi
    rw [List.mem_range] at hi
    have : decide (i ≤ k) = true := by simp; omega
    simp [this]
  · have h1 : ((List.range (k + 1)).countP fun i => a.testBit i && b.testBit (k - i)) =
        ((List.range 64).countP fun i => a.testBit i && b.testBit (k - i)) := by
      apply countP_range_eq_of_false (by omega)
      intro i hi64
      have : a.testBit i = false :=
        Nat.testBit_lt_two_pow (Nat.lt_of_lt_of_le ha (Nat.pow_le_pow_right (by omega) hi64))
      simp [this]
    rw [h1]
    apply List.countP_congr
    intro i hi
    rw [List.mem_range] at hi
    have : decide (i ≤ k) = true := by simp; omega
    simp [this]

/-- C2: the software fallback of `pmul64` returns `(lo, hi)` whose 128-bit
concatenation `hi:lo` has, at every bit position `k`, the XOR-parity of all
`a_i · b_j` with `i + j = k`; and `pmul32` is exactly the widening of both
operands through `pmul64` followed by re-splitting the low 64-bit half into
two 32-bit halves. -/
theorem pmul64_matches_spec (a b : Nat) (ha : a < 2 ^ 64) (hb : b < 2 ^ 64) :
    (∀ k, ((pmul64 a b).2 * 2 ^ 64 + (pmul64 a b).1).testBit k = pmulSpecBit a b k) ∧
    (∀ x y : Nat, pmul32 x y = (mask32 (pmul64 x y).1, mask32 ((pmul64 x y).1 >>> 32))) := by
  constructor
  · intro k
    rw [pmul64_eq a b hb]
    dsimp only
    have hcat : clmul a b >>> 64 * 2 ^ 64 + clmul a b % 2 ^ 64 = clmul a b := by
      rw [Nat.shiftRight_eq_div_pow, Nat.mul_comm, Nat.div_add_mod]
    rw [hcat, clmul_testBit]
    unfold pmulSpecBit
    rw [count_transfer a b k ha]
  · intro x y
    rfl

/-- C2 witness: evaluated at a concrete pair of operands and bit position. -/
theorem pmul64_matches_spec_witness :
    ((0xdeadbeefcafebabe : Nat) < 2 ^ 64 ∧ (0x123456789abcdef0 : Nat) < 2 ^ 64) ∧
    ((pmul64 0xdeadbeefcafebabe 0x123456789abcdef0).2 * 2 ^ 64 +
      (pmul64 0xdeadbeefcafebabe 0x123456789abcdef0).1).testBit 77 =
        pmulSpecBit 0xdeadbeefcafebabe 0x123456789abcdef0 77 ∧
    pmul32 0x84838281 0xfb808b20 =
      (mask32 (pmul64 0x84838281 0xfb808b20).1,
        mask32 ((pmul64 0x84838281 0xfb808b20).1 >>> 32)) :=
  ⟨⟨by decide, by decide⟩,
    (pmul64_matches_spec 0xdeadbeefcafebabe 0x123456789abcdef0 (by decide) (by decide)).1 77,
    (pmul64_matches_spec 0xdeadbeefcafebabe 0x123456789abcdef0 (by decide) (by decide)).2
      0x84838281 0xfb808b20⟩

/-! ### C5, C6, C7, C10: known vectors, zero-divisor failures, empty input -/

set_option maxRecDepth 100000 in
/-- C5: with the standard generator `0x104c11db7`, the checksum of the empty
input is 0 and the checksum of the bytes of `"123"` is `0x884863d2`. -/
theorem crc32_known_vectors :
    (Crc32.new 0x104c11db7).map
      (fun c => (c.crc32 0 [], c.crc32 0 [0x31, 0x32, 0x33])) = some (0, 0x884863d2) := by
  decide

/-- C6: dividing by the zero polynomial reports an explicit `none` in
`pdivmod64`, and both convenience entry points propagate the same failure. -/
theorem pdivmod64_zero_divisor (a : Nat) :
    pdivmod64 a 0 = none ∧ pdiv64 a 0 = none ∧ pmod64 a 0 = none :=
  ⟨rfl, rfl, rfl⟩

/-- C7: constructing an engine from the zero polynomial fails: the division
failure propagates and no engine value is produced. -/
theorem crc32_new_zero_fails : Crc32.new 0 = none := rfl

/-- C10: for every constructed engine and 32-bit seed, updating over the
empty byte sequence returns the seed unchanged (the entry and exit
inversions cancel). -/
theorem crc32_empty_seed (p : Nat) (c : Crc32) (crc : Nat)
    (hc : Crc32.new p = some c) (hcrc : crc < 2 ^ 32) :
    c.crc32 crc [] = crc := by
  show ((crc ^^^ 0xffffffff) ^^^ 0xffffffff) = crc
  rw [Nat.xor_assoc, Nat.xor_self, Nat.xor_zero]

/-- The engine built from the standard CRC-32 generator, as an explicit
record (used to instantiate theorems about constructed engines). -/
def stdEngine : Crc32 :=
  { p := 4374732215, b := 80806367, p_r := 3988292384, b_r := 4219505440 }

theorem stdEngine_new : Crc32.new 0x104c11db7 = some stdEngine := by decide

/-- C10 witness: a constructed engine and concrete seed. -/
theorem crc32_empty_seed_witness :
    (Crc32.new 0x104c11db7 = some stdEngine ∧ (5 : Nat) < 2 ^ 32) ∧
    stdEngine.crc32 5 [] = 5 :=
  ⟨⟨stdEngine_new, by decide⟩,
    crc32_empty_seed 0x104c11db7 stdEngine 5 stdEngine_new (by decide)⟩

/-! ### C4: the Barret constant -/

theorem clmul_leading {u b : Nat} (hu : u ≠ 0) (hb : b ≠ 0)
    (hu64 : u < 2 ^ 64) (hb64 : b < 2 ^ 64) :
    (clmul u b).testBit ((blen u - 1) + (blen b - 1)) = true := by
  have hup := blen_pos hu hu64
  have hbp := blen_pos hb hb64
  have hu63 : blen u - 1 < 64 := by have := blen_le_64 u; omega
  rw [clmul_testBit]
  have hcount : ((List.range 64).countP fun i => u.testBit i &&
      (decide (i ≤ (blen u - 1) + (blen b - 1)) &&
        b.testBit ((blen u - 1) + (blen b - 1) - i))) = 1 := by
    apply countP_range_single hu63
    intro i _
    constructor
    · intro htrue
      simp only [Bool.and_eq_true, decide_eq_true_eq] at htrue
      obtain ⟨h1, _, h3⟩ := htrue
      have hile : i ≤ blen u - 1 := by
        by_contra hcon
        have : u.testBit i = false :=
          Nat.testBit_lt_two_pow (Nat.lt_of_lt_of_le (blen_lt_pow hu64)
            (Nat.pow_le_pow_right (by omega) (by omega)))
        rw [this] at h1
        exact Bool.false_ne_true h1
      have hige : blen u - 1 ≤ i := by
        by_contra hcon
        have hgt : blen b - 1 < (blen u - 1) + (blen b - 1) - i := by omega
        have : b.testBit ((blen u - 1) + (blen b - 1) - i) = false :=
          Nat.testBit_lt_two_pow (Nat.lt_of_lt_of_le (blen_lt_pow hb64)
            (Nat.pow_le_pow_right (by omega) (by omega)))
        rw [this] at h3
        exact Bool.false_ne_true h3
      omega
    · intro hi
      subst hi
      rw [testBit_blen hu hu64]
      have hsub : (blen u - 1) + (blen b - 1) - (blen u - 1) = blen b - 1 := by omega
      rw [hsub, testBit_blen hb hb64]
      simp
  rw [hcount]
  decide

theorem xor_left_cancel {a r1 r2 : Nat} (h : a ^^^ r1 = a ^^^ r2) : r1 = r2 := by
  have h1 : a ^^^ (a ^^^ r1) = a ^^^ (a ^^^ r2) := by rw [h]
  rwa [← Nat.xor_assoc, Nat.xor_self, Nat.zero_xor, ← Nat.xor_assoc,
    Nat.xor_self, Nat.zero_xor] at h1

theorem clmul_div_unique {b : Nat} (hb : b ≠ 0) (hb64 : b < 2 ^ 64)
    {q1 q2 r1 r2 : Nat} (hq1 : q1 < 2 ^ 64) (hq2 : q2 < 2 ^ 64)
    (hr1 : r1 < 2 ^ 64) (hr2 : r2 < 2 ^ 64)
    (h : clmul q1 b ^^^ r1 = clmul q2 b ^^^ r2)
    (hd1 : blen r1 < blen b) (hd2 : blen r2 < blen b) : q1 = q2 ∧ r1 = r2 := by
  have hbp := blen_pos hb hb64
  have hq : q1 = q2 := by
    by_contra hne
    have hune : q1 ^^^ q2 ≠ 0 := by
      intro h0
      exact hne (by
        have := congrArg (fun t => t ^^^ q2) h0
        simpa [Nat.xor_assoc, Nat.xor_self, Nat.xor_zero, Nat.zero_xor] using this)
    have hcl : clmul (q1 ^^^ q2) b = r2 ^^^ r1 := by
      have h2 : (clmul q1 b ^^^ r1) ^^^ (clmul q2 b ^^^ r1) =
          (clmul q2 b ^^^ r2) ^^^ (clmul q2 b ^^^ r1) := by rw [h]
      rw [xor_cancel_pair] at h2
      rw [Nat.xor_comm (clmul q2 b) r2, Nat.xor_comm (clmul q2 b) r1,
        xor_cancel_pair] at h2
      rw [clmul_xor_left]
      exact h2
    have hu64 : q1 ^^^ q2 < 2 ^ 64 := Nat.xor_lt_two_pow hq1 hq2
    have hlead := clmul_leading hune hb hu64 hb64
    rw [hcl] at hlead
    have hxlt : r2 ^^^ r1 < 2 ^ (blen b - 1) := by
      apply Nat.xor_lt_two_pow
      · exact (blen_le_iff hr2 (blen b - 1)).mp (by omega)
      · exact (blen_le_iff hr1 (blen b - 1)).mp (by omega)
    have hfalse : (r2 ^^^ r1).testBit ((blen (q1 ^^^ q2) - 1) + (blen b - 1)) = false :=
      Nat.testBit_lt_two_pow (Nat.lt_of_lt_of_le hxlt
        (Nat.pow_le_pow_right (by omega) (by omega)))
    rw [hfalse] at hlead
    exact Bool.false_ne_true hlead
  subst hq
  exact ⟨rfl, xor_left_cancel h⟩

theorem pdivmodLoop_q_lt {b : Nat} :
    ∀ fuel q r, q < 2 ^ 64 → (pdivmodLoop b fuel q r).1 < 2 ^ 64 := by
  intro fuel
  induction fuel with
  | zero => intro q r hq; exact hq
  | succ fuel ih =>
    intro q r hq
    by_cases hc : leadingZeros64 r ≤ leadingZeros64 b
    · simp only [pdivmodLoop, if_pos hc]
      exact ih _ _ (Nat.xor_lt_two_pow hq (mask64_lt _))
    · simp only [pdivmodLoop, if_neg hc]
      exact hq

theorem pdivmod64_facts (a b : Nat) (ha : a < 2 ^ 64) (hb : b ≠ 0) (hb64 : b < 2 ^ 64) :
    ∃ q r, pdiv64 a b = some q ∧ pmod64 a b = some r ∧ q < 2 ^ 64 ∧ r < 2 ^ 64 ∧
      clmul q b ^^^ r = a ∧ blen r < blen b := by
  have hfuel : blen a < blen b + 64 := by
    have := blen_le_64 a
    have := blen_pos hb hb64
    omega
  obtain ⟨hid, hdeg, hfin⟩ := pdivmodLoop_spec hb hb64 64 0 a ha hfuel
  rw [clmul_zero_left, Nat.zero_xor] at hid
  refine ⟨(pdivmodLoop b 64 0 a).1, (pdivmodLoop b 64 0 a).2, ?_, ?_,
    pdivmodLoop_q_lt 64 0 a (by norm_num), hfin, hid, hdeg⟩
  · simp [pdiv64, pdivmod64, hb]
  · simp [pmod64, pdivmod64, hb]

/-- C4 counterexample: for the standard generator `p = 0x104c11db7`, the
mathematical quotient `⌊(p·x^32)/p⌋` is exactly `x^32` (witnessed by the
division identity `clmul 2^32 p XOR 0 = p <<< 32` with zero remainder), so
truncated to 32 bits it is 0 — but the constant the engine stores is the
nonzero `0x04d101df`.  The claim's formula ignores that the code computes
`p << 32` in a 64-bit container, which drops the leading term of `p`. -/
theorem barret_constant_counterexample :
    (Crc32.new 0x104c11db7).map (fun c => c.b) = some 0x04d101df ∧
    clmul (2 ^ 32) 0x104c11db7 ^^^ 0 = 0x104c11db7 <<< 32 ∧
    blen 0 < blen 0x104c11db7 ∧
    (0x04d101df : Nat) ≠ 2 ^ 32 % 2 ^ 32 := by
  refine ⟨by decide, ?_, by decide, by decide⟩
  rw [Nat.xor_zero, clmul_two_pow 32 _ (by omega)]

/-- C4 (amended): for every nonzero generator of degree ≤ 32, the stored
constant `b` equals the GF(2)[x] quotient of the 64-bit-truncated `p << 32`
by `p` — equivalently `⌊((p·x^32) mod x^64)/p⌋` — truncated to 32 bits, and
`b` has degree ≤ 31.  The quotient is pinned down by the division identity:
any `q, r` with `clmul q p XOR r = mask64 (p <<< 32)` and `deg r < deg p`
has `b = q mod 2^32`. -/
theorem barret_constant_amended (p : Nat) (hp : p ≠ 0) (hp33 : p < 2 ^ 33) :
    ∃ c, Crc32.new p = some c ∧ c.b < 2 ^ 32 ∧
      (∃ q r, q < 2 ^ 64 ∧ r < 2 ^ 64 ∧ clmul q p ^^^ r = mask64 (p <<< 32) ∧
        blen r < blen p ∧ c.b = q % 2 ^ 32) ∧
      (∀ q r, q < 2 ^ 64 → r < 2 ^ 64 → clmul q p ^^^ r = mask64 (p <<< 32) →
        blen r < blen p → c.b = q % 2 ^ 32) := by
  have hp64 : p < 2 ^ 64 := by
    calc p < 2 ^ 33 := hp33
    _ ≤ 2 ^ 64 := by norm_num
  obtain ⟨q, r, hdiv, hmod, hq64, hr64, hid, hdeg⟩ :=
    pdivmod64_facts (mask64 (p <<< 32)) p (mask64_lt _) hp hp64
  refine ⟨⟨p, mask32 q, reverseBits32 (mask32 p), reverseBits32 (mask32 q)⟩, ?_,
    mask32_lt q, ⟨q, r, hq64, hr64, hid, hdeg, rfl⟩, ?_⟩
  · simp [Crc32.new, hdiv]
  · intro q2 r2 hq2 hr2 hid2 hdeg2
    obtain ⟨hqq, _⟩ := clmul_div_unique hp hp64 hq2 hq64 hr2 hr64
      (hid2.trans hid.symm) hdeg2 hdeg
    show mask32 q = q2 % 2 ^ 32
    rw [hqq]
    rfl

/-- C4 witness: the amended statement at the standard generator. -/
theorem barret_constant_amended_witness :
    ((0x104c11db7 : Nat) ≠ 0 ∧ (0x104c11db7 : Nat) < 2 ^ 33) ∧
    (∃ c, Crc32.new 0x104c11db7 = some c ∧ c.b < 2 ^ 32 ∧
      (∃ q r, q < 2 ^ 64 ∧ r < 2 ^ 64 ∧
        clmul q 0x104c11db7 ^^^ r = mask64 ((0x104c11db7 : Nat) <<< 32) ∧
        blen r < blen 0x104c11db7 ∧ c.b = q % 2 ^ 32) ∧
      (∀ q r, q < 2 ^ 64 → r < 2 ^ 64 →
        clmul q 0x104c11db7 ^^^ r = mask64 ((0x104c11db7 : Nat) <<< 32) →
        blen r < blen 0x104c11db7 → c.b = q % 2 ^ 32)) :=
  ⟨⟨by decide, by decide⟩, barret_constant_amended 0x104c11db7 (by decide) (by decide)⟩

/-! ### C8: totality and 32-bit boundedness of the update function -/

theorem shiftRight_lt_two_pow {x n k : Nat} (hx : x < 2 ^ n) : x >>> k < 2 ^ n := by
  rw [Nat.shiftRight_eq_div_pow]
  exact Nat.lt_of_le_of_lt (Nat.div_le_self _ _) hx

theorem barretFold_lt (c : Crc32) (x : Nat) : barretFold c x < 2 ^ 32 := by
  show mask32 _ ||| ((pmul32 _ c.p_r).1 >>> 31) < 2 ^ 32
  apply lor_lt_two_pow (mask32_lt _)
  exact shiftRight_lt_two_pow (mask32_lt _)

theorem wordStep_lt (c : Crc32) (crc : Nat) (w : List Nat) : wordStep c crc w < 2 ^ 32 :=
  barretFold_lt c _

theorem byteStep_lt (c : Crc32) {crc b : Nat} (hcrc : crc < 2 ^ 32) (hb : b < 2 ^ 32) :
    byteStep c crc b < 2 ^ 32 := by
  show (crc ^^^ b) >>> 8 ^^^ barretFold c (mask32 ((crc ^^^ b) <<< 24)) < 2 ^ 32
  exact Nat.xor_lt_two_pow (shiftRight_lt_two_pow (Nat.xor_lt_two_pow hcrc hb))
    (barretFold_lt c _)

theorem foldl_wordStep_lt (c : Crc32) (ws : List (List Nat)) {s : Nat} (hs : s < 2 ^ 32) :
    ws.foldl (wordStep c) s < 2 ^ 32 := by
  induction ws generalizing s with
  | nil => exact hs
  | cons w ws ih => exact ih (wordStep_lt c s w)

theorem foldl_byteStep_lt (c : Crc32) {bs : List Nat} {s : Nat} (hs : s < 2 ^ 32)
    (hbs : ∀ b ∈ bs, b < 256) : bs.foldl (byteStep c) s < 2 ^ 32 := by
  induction bs generalizing s with
  | nil => exact hs
  | cons b bs ih =>
    apply ih (byteStep_lt c hs ?_) fun x hx => hbs x (by simp [hx])
    calc b < 256 := hbs b (by simp)
    _ ≤ 2 ^ 32 := by norm_num

theorem chunksExact4_join (l : List Nat) :
    ((chunksExact4 l).1.flatten) ++ (chunksExact4 l).2 = l := by
  induction l using chunksExact4.induct with
  | case1 b0 b1 b2 b3 rest ih =>
    show (([b0, b1, b2, b3] :: (chunksExact4 rest).1).flatten) ++ (chunksExact4 rest).2 = _
    rw [List.flatten_cons, List.append_assoc, ih]
    rfl
  | case2 rest h =>
    have : chunksExact4 rest = ([], rest) := by
      unfold chunksExact4
      cases rest with
      | nil => rfl
      | cons x xs =>
        cases xs with
        | nil => rfl
        | cons y ys =>
          cases ys with
          | nil => rfl
          | cons z zs =>
            cases zs with
            | nil => rfl
            | cons w ws => exact absurd rfl (h x y z w ws)
    rw [this]
    rfl

theorem chunksExact4_length (l : List Nat) :
    ∀ w ∈ (chunksExact4 l).1, w.length = 4 := by
  induction l using chunksExact4.induct with
  | case1 b0 b1 b2 b3 rest ih =>
    intro w hw
    have hw2 : w ∈ ([b0, b1, b2, b3] :: (chunksExact4 rest).1) := hw
    rcases List.mem_cons.mp hw2 with he | hm
    · rw [he]; rfl
    · exact ih w hm
  | case2 rest h =>
    intro w hw
    have : chunksExact4 rest = ([], rest) := by
      unfold chunksExact4
      cases rest with
      | nil => rfl
      | cons x xs =>
        cases xs with
        | nil => rfl
        | cons y ys =>
          cases ys with
          | nil => rfl
          | cons z zs =>
            cases zs with
            | nil => rfl
            | cons w2 ws => exact absurd rfl (h x y z w2 ws)
    rw [this] at hw
    cases hw

/-- C8: for every constructed engine, 32-bit seed, and byte sequence, the
update is a total pure function: every 4-byte chunk produced by the
chunking really has length 4 (so the slice-to-array conversion cannot
fail), and the result is again a 32-bit value. -/
theorem crc32_total (p : Nat) (c : Crc32) (crc : Nat) (data : List Nat)
    (hc : Crc32.new p = some c) (hcrc : crc < 2 ^ 32) (hdata : ∀ b ∈ data, b < 256) :
    c.crc32 crc data < 2 ^ 32 ∧ ∀ w ∈ (chunksExact4 data).1, w.length = 4 := by
  refine ⟨?_, chunksExact4_length data⟩
  show crcRaw c (crc ^^^ 0xffffffff) data ^^^ 0xffffffff < 2 ^ 32
  have hrem : ∀ b ∈ (chunksExact4 data).2, b < 256 := by
    intro b hb
    apply hdata
    rw [← chunksExact4_join data]
    exact List.mem_append.mpr (Or.inr hb)
  have hraw : crcRaw c (crc ^^^ 0xffffffff) data < 2 ^ 32 := by
    unfold crcRaw
    exact foldl_byteStep_lt c
      (foldl_wordStep_lt c _ (Nat.xor_lt_two_pow hcrc (by norm_num))) hrem
  exact Nat.xor_lt_two_pow hraw (by norm_num)

/-- C8 witness: totality facts at a concrete engine, seed, and data. -/
theorem crc32_total_witness :
    (Crc32.new 0x104c11db7 = some stdEngine ∧ (7 : Nat) < 2 ^ 32 ∧
      (∀ b ∈ [1, 2, 3, 4, 5, 250], b < 256)) ∧
    (stdEngine.crc32 7 [1, 2, 3, 4, 5, 250] < 2 ^ 32 ∧
      ∀ w ∈ (chunksExact4 [1, 2, 3, 4, 5, 250]).1, w.length = 4) :=
  ⟨⟨stdEngine_new, by decide, by decide⟩,
    crc32_total 0x104c11db7 stdEngine 7 [1, 2, 3, 4, 5, 250]
      stdEngine_new (by decide) (by decide)⟩

/-! ### A bridge into GF(2)[x]: values as polynomials over ZMod 2

The chaining property of the Barret-reduction update is an algebraic fact
about multiplication and remainder in GF(2)[x]; we transport the bit-level
code into `Polynomial (ZMod 2)` where Mathlib provides the ring and
`modByMonic` theory. -/

open Polynomial

/-- The polynomial over GF(2) whose coefficient of `x^i` is bit `i` of `v`
(for the 128 bits that all values in this development fit in). -/
noncomputable def toPoly (v : Nat) : Polynomial (ZMod 2) :=
  ((List.range 128).map (fun i => if v.testBit i then (X : Polynomial (ZMod 2)) ^ i else 0)).sum

theorem list_map_sum_single {M : Type} [AddCommMonoid M] (g : Nat → M) {l : List Nat} {d : Nat}
    (hl : l.Nodup) (hd : d ∈ l) (hz : ∀ i ∈ l, i ≠ d → g i = 0) :
    (l.map g).sum = g d := by
  induction l with
  | nil => cases hd
  | cons i l ih =>
    rw [List.nodup_cons] at hl
    rw [List.map_cons, List.sum_cons]
    rcases List.mem_cons.mp hd with he | hm
    · subst he
      have hrest : (l.map g).sum = 0 := by
        apply List.sum_eq_zero
        intro x hx
        rw [List.mem_map] at hx
        obtain ⟨j, hj, hjx⟩ := hx
        rw [← hjx]
        exact hz j (by simp [hj]) (fun hc => hl.1 (hc ▸ hj))
      rw [hrest, add_zero]
    · have hi : i ≠ d := fun hc => hl.1 (hc ▸ hm)
      rw [hz i (by simp) hi, zero_add]
      exact ih hl.2 hm fun j hj hjd => hz j (by simp [hj]) hjd

theorem toPoly_coeff (v k : Nat) :
    (toPoly v).coeff k = if k < 128 ∧ v.testBit k then 1 else 0 := by
  unfold toPoly
  rw [show ((List.range 128).map
        (fun i => if v.testBit i then (X : Polynomial (ZMod 2)) ^ i else 0)).sum.coeff k =
      ((lcoeff (ZMod 2) k) ((List.range 128).map
        (fun i => if v.testBit i then (X : Polynomial (ZMod 2)) ^ i else 0)).sum) from rfl,
    map_list_sum, List.map_map]
  rcases Nat.lt_or_ge k 128 with hk | hk
  · rw [list_map_sum_single _ (List.nodup_range 128) (List.mem_range.mpr hk)]
    · show ((if v.testBit k then (X : Polynomial (ZMod 2)) ^ k else 0)).coeff k = _
      by_cases h : v.testBit k
      · simp [h, coeff_X_pow, hk]
      · simp [h, hk]
    · intro i _ hik
      show ((if v.testBit i then (X : Polynomial (ZMod 2)) ^ i else 0)).coeff k = 0
      by_cases h : v.testBit i
      · simp [h, coeff_X_pow, Ne.symm hik]
      · simp [h]
  · rw [List.sum_eq_zero, if_neg (by omega)]
    intro x hx
    rw [List.mem_map] at hx
    obtain ⟨j, hj, hjx⟩ := hx
    rw [List.mem_range] at hj
    rw [← hjx]
    show ((if v.testBit j then (X : Polynomial (ZMod 2)) ^ j else 0)).coeff k = 0
    by_cases h : v.testBit j
    · simp [h, coeff_X_pow]
      omega
    · simp [h]

theorem toPoly_coeff_lt {v : Nat} (hv : v < 2 ^ 128) (k : Nat) :
    (toPoly v).coeff k = if v.testBit k then 1 else 0 := by
  rw [toPoly_coeff]
  rcases Nat.lt_or_ge k 128 with hk | hk
  · simp [hk]
  · have : v.testBit k = false :=
      Nat.testBit_lt_two_pow (Nat.lt_of_lt_of_le hv (Nat.pow_le_pow_right (by omega) hk))
    simp [this, hk]

theorem toPoly_zero : toPoly 0 = 0 := by
  unfold toPoly
  apply List.sum_eq_zero
  intro x hx
  rw [List.mem_map] at hx
  obtain ⟨j, _, hjx⟩ := hx
  rw [← hjx]
  simp

theorem toPoly_inj {u v : Nat} (hu : u < 2 ^ 128) (hv : v < 2 ^ 128)
    (h : toPoly u = toPoly v) : u = v := by
  apply Nat.eq_of_testBit_eq
  intro i
  have hc := congrArg (fun f => Polynomial.coeff f i) h
  simp only [toPoly_coeff_lt hu, toPoly_coeff_lt hv] at hc
  by_cases h1 : u.testBit i <;> by_cases h2 : v.testBit i <;>
    simp [h1, h2] at hc ⊢

theorem toPoly_xor {a b : Nat} (ha : a < 2 ^ 128) (hb : b < 2 ^ 128) :
    toPoly (a ^^^ b) = toPoly a + toPoly b := by
  apply Polynomial.ext
  intro n
  rw [coeff_add, toPoly_coeff_lt (Nat.xor_lt_two_pow ha hb), toPoly_coeff_lt ha,
    toPoly_coeff_lt hb, Nat.testBit_xor]
  cases h1 : a.testBit n <;> cases h2 : b.testBit n <;> simp <;> decide

theorem toPoly_shiftLeft {v : Nat} (k : Nat) (hvk : v <<< k < 2 ^ 128) :
    toPoly (v <<< k) = X ^ k * toPoly v := by
  have hv : v < 2 ^ 128 := by
    rw [Nat.shiftLeft_eq] at hvk
    calc v ≤ v * 2 ^ k := Nat.le_mul_of_pos_right _ (Nat.pos_pow_of_pos _ (by omega))
    _ < 2 ^ 128 := hvk
  apply Polynomial.ext
  intro n
  rw [toPoly_coeff_lt hvk, mul_comm, coeff_mul_X_pow', Nat.testBit_shiftLeft]
  by_cases hkn : k ≤ n
  · rw [if_pos hkn, toPoly_coeff_lt hv]
    simp [ge_iff_le, hkn]
  · rw [if_neg hkn]
    simp [ge_iff_le, hkn]

theorem shiftLeft_xor_small {u w k : Nat} (hw : w < 2 ^ k) :
    (u <<< k) ^^^ w = u <<< k + w := by
  apply Nat.eq_of_testBit_eq
  intro j
  have hadd : u <<< k + w = 2 ^ k * u + w := by rw [Nat.shiftLeft_eq, Nat.mul_comm]
  rw [hadd, Nat.testBit_mul_pow_two_add u hw, Nat.testBit_xor, Nat.testBit_shiftLeft]
  by_cases hj : j < k
  · have h1 : decide (j ≥ k) = false := by simp; omega
    have h2 : u.testBit (j - k) = u.testBit (j - k) := rfl
    rw [if_pos hj, h1]
    simp
  · have h1 : decide (j ≥ k) = true := by simp; omega
    have h2 : w.testBit j = false :=
      Nat.testBit_lt_two_pow (Nat.lt_of_lt_of_le hw (Nat.pow_le_pow_right (by omega) (by omega)))
    rw [if_neg hj, h1, h2]
    simp

theorem shiftRight_shiftLeft_xor_mod (v k : Nat) :
    (v >>> k <<< k) ^^^ v % 2 ^ k = v := by
  rw [shiftLeft_xor_small (Nat.mod_lt _ (Nat.pos_pow_of_pos _ (by omega))),
    Nat.shiftLeft_eq, Nat.shiftRight_eq_div_pow, Nat.mul_comm]
  exact Nat.div_add_mod v (2 ^ k)

theorem toPoly_decompose {v : Nat} (k : Nat) (hv : v < 2 ^ 128) :
    toPoly v = X ^ k * toPoly (v >>> k) + toPoly (v % 2 ^ k) := by
  have hsl : v >>> k <<< k < 2 ^ 128 := by
    rw [Nat.shiftLeft_eq, Nat.shiftRight_eq_div_pow]
    exact Nat.lt_of_le_of_lt (Nat.div_mul_le_self v _) hv
  have hdec := shiftRight_shiftLeft_xor_mod v k
  calc toPoly v = toPoly ((v >>> k <<< k) ^^^ v % 2 ^ k) := by rw [hdec]
  _ = toPoly (v >>> k <<< k) + toPoly (v % 2 ^ k) :=
      toPoly_xor hsl (Nat.lt_of_le_of_lt (Nat.mod_le _ _) hv)
  _ = X ^ k * toPoly (v >>> k) + toPoly (v % 2 ^ k) := by rw [toPoly_shiftLeft k hsl]

theorem toPoly_degree_lt {v n : Nat} (hv : v < 2 ^ n) : (toPoly v).degree < (n : ℕ) := by
  rw [degree_lt_iff_coeff_zero]
  intro m hm
  rw [toPoly_coeff]
  have : v.testBit m = false := by
    apply Nat.testBit_lt_two_pow
    exact Nat.lt_of_lt_of_le hv (Nat.pow_le_pow_right (by omega) (by exact_mod_cast hm))
  simp [this]

/-! ### Bit reversal as polynomial reflection -/

theorem reverseBits32_testBit (v k : Nat) :
    (reverseBits32 v).testBit k = (decide (k < 32) && v.testBit (31 - k)) := by
  unfold reverseBits32
  rw [testBit_foldl_xor]
  rcases Nat.lt_or_ge k 32 with hk | hk
  · cases hbit : v.testBit (31 - k) with
    | true =>
      have hcount : ((List.range 32).countP fun i =>
          (if v.testBit i then 1 <<< (31 - i) else 0).testBit k) = 1 := by
        apply countP_range_single (show 31 - k < 32 by omega)
        intro i hi
        constructor
        · intro htrue
          by_cases h : v.testBit i
          · rw [if_pos h] at htrue
            rw [Nat.shiftLeft_eq, Nat.one_mul, Nat.testBit_two_pow] at htrue
            have := of_decide_eq_true htrue
            omega
          · rw [if_neg h] at htrue
            rw [Nat.zero_testBit] at htrue
            exact absurd htrue Bool.false_ne_true
        · intro hi2
          subst hi2
          rw [if_pos hbit, Nat.shiftLeft_eq, Nat.one_mul, Nat.testBit_two_pow]
          simp
          omega
      rw [hcount]
      simp [hk, hbit]
    | false =>
      have hcount : ((List.range 32).countP fun i =>
          (if v.testBit i then 1 <<< (31 - i) else 0).testBit k) = 0 := by
        rw [List.countP_eq_zero]
        intro i hi
        rw [List.mem_range] at hi
        by_cases h : v.testBit i
        · rw [if_pos h, Nat.shiftLeft_eq, Nat.one_mul, Nat.testBit_two_pow]
          simp
          intro he
          have : i = 31 - k := by omega
          rw [this] at h
          rw [h] at hbit
          exact Bool.noConfusion hbit
        · rw [if_neg h, Nat.zero_testBit]
          simp
      rw [hcount]
      simp
  · have hcount : ((List.range 32).countP fun i =>
        (if v.testBit i then 1 <<< (31 - i) else 0).testBit k) = 0 := by
      rw [List.countP_eq_zero]
      intro i hi
      rw [List.mem_range] at hi
      by_cases h : v.testBit i
      · rw [if_pos h, Nat.shiftLeft_eq, Nat.one_mul, Nat.testBit_two_pow]
        simp
        omega
      · rw [if_neg h, Nat.zero_testBit]
        simp
    rw [hcount]
    have : decide (k < 32) = false := by simp; omega
    simp [this]

theorem reverseBits32_lt (v : Nat) : reverseBits32 v < 2 ^ 32 := by
  apply lt_two_pow_of_testBit_false
  intro i hi
  rw [reverseBits32_testBit]
  have : decide (i < 32) = false := by simp; omega
  simp [this]

theorem reverseBits32_mask (v : Nat) : reverseBits32 (mask32 v) = reverseBits32 v := by
  apply Nat.eq_of_testBit_eq
  intro k
  rw [reverseBits32_testBit, reverseBits32_testBit]
  unfold mask32
  rw [Nat.testBit_mod_two_pow]
  by_cases hk : k < 32
  · have : decide (31 - k < 32) = true := by simp; omega
    simp [hk, this]
  · simp [hk]

theorem reverseBits32_involution {v : Nat} (hv : v < 2 ^ 32) :
    reverseBits32 (reverseBits32 v) = v := by
  apply Nat.eq_of_testBit_eq
  intro k
  rw [reverseBits32_testBit, reverseBits32_testBit]
  by_cases hk : k < 32
  · have h31 : 31 - k < 32 := by omega
    have h2 : 31 - (31 - k) = k := by omega
    simp [hk, h31, h2]
  · have : v.testBit k = false :=
      Nat.testBit_lt_two_pow (Nat.lt_of_lt_of_le hv (Nat.pow_le_pow_right (by omega) (by omega)))
    simp [hk, this]

theorem toPoly_reverseBits32 {v : Nat} (hv : v < 2 ^ 32) :
    toPoly (reverseBits32 v) = reflect 31 (toPoly v) := by
  have hr : reverseBits32 v < 2 ^ 128 := by
    calc reverseBits32 v < 2 ^ 32 := reverseBits32_lt v
    _ ≤ 2 ^ 128 := by norm_num
  have hv128 : v < 2 ^ 128 := by
    calc v < 2 ^ 32 := hv
    _ ≤ 2 ^ 128 := by norm_num
  apply Polynomial.ext
  intro n
  rw [toPoly_coeff_lt hr, coeff_reflect, reverseBits32_testBit]
  rcases Nat.lt_or_ge n 32 with hn | hn
  · rw [revAt_le (show n ≤ 31 by omega), toPoly_coeff_lt hv128]
    simp [hn]
  · rw [revAt_eq_self_of_lt (show 31 < n by omega), toPoly_coeff_lt hv128]
    have h1 : v.testBit n = false :=
      Nat.testBit_lt_two_pow (Nat.lt_of_lt_of_le hv (Nat.pow_le_pow_right (by omega) (by omega)))
    have h2 : decide (n < 32) = false := by simp; omega
    simp [h1, h2]

/-! ### The reference product is polynomial multiplication -/

theorem toPoly_foldl_xor (f : Nat → Nat) (l : List Nat) (hf : ∀ i ∈ l, f i < 2 ^ 127) :
    (l.foldl (fun acc i => acc ^^^ f i) 0) < 2 ^ 127 ∧
    toPoly (l.foldl (fun acc i => acc ^^^ f i) 0) = (l.map (fun i => toPoly (f i))).sum := by
  induction l with
  | nil => exact ⟨by norm_num, toPoly_zero⟩
  | cons i l ih =>
    simp only [List.foldl_cons, Nat.zero_xor, List.map_cons, List.sum_cons]
    rw [foldl_xor_eq]
    obtain ⟨ihlt, iheq⟩ := ih fun j hj => hf j (by simp [hj])
    have hfi : f i < 2 ^ 127 := hf i (by simp)
    refine ⟨Nat.xor_lt_two_pow hfi ihlt, ?_⟩
    rw [toPoly_xor (by calc f i < 2 ^ 127 := hfi
          _ ≤ 2 ^ 128 := by norm_num)
      (by calc l.foldl (fun acc i => acc ^^^ f i) 0 < 2 ^ 127 := ihlt
          _ ≤ 2 ^ 128 := by norm_num), iheq]

theorem toPoly_natDegree_le {v n : Nat} (hv : v < 2 ^ (n + 1)) :
    (toPoly v).natDegree ≤ n := by
  rw [Polynomial.natDegree_le_iff_coeff_eq_zero]
  intro N hN
  rw [toPoly_coeff]
  have : v.testBit N = false :=
    Nat.testBit_lt_two_pow (Nat.lt_of_lt_of_le hv (Nat.pow_le_pow_right (by omega) (by omega)))
  simp [this]

theorem toPoly_clmul {a b : Nat} (ha : a < 2 ^ 64) (hb : b < 2 ^ 64) :
    toPoly (clmul a b) = toPoly a * toPoly b := by
  unfold clmul
  have hf : ∀ i ∈ List.range 64, (if a.testBit i then b <<< i else 0) < 2 ^ 127 := by
    intro i hi
    rw [List.mem_range] at hi
    by_cases h : a.testBit i
    · rw [if_pos h, Nat.shiftLeft_eq]
      calc b * 2 ^ i < 2 ^ 64 * 2 ^ i :=
            (Nat.mul_lt_mul_right (Nat.pos_pow_of_pos _ (by omega))).mpr hb
      _ ≤ 2 ^ 64 * 2 ^ 63 := Nat.mul_le_mul_left _ (Nat.pow_le_pow_right (by omega) (by omega))
      _ = 2 ^ 127 := by norm_num
    · rw [if_neg h]
      exact Nat.pos_pow_of_pos _ (by omega)
  obtain ⟨_, heq⟩ := toPoly_foldl_xor _ _ hf
  rw [heq]
  have hsplit : toPoly a = ((List.range 64).map
      (fun i => if a.testBit i then (X : Polynomial (ZMod 2)) ^ i else 0)).sum := by
    unfold toPoly
    rw [show (128 : Nat) = 64 + 64 from rfl, List.range_add, List.map_append, List.sum_append]
    have hz : ((List.map (fun x => 64 + x) (List.range 64)).map
        (fun i => if a.testBit i then (X : Polynomial (ZMod 2)) ^ i else 0)).sum = 0 := by
      apply List.sum_eq_zero
      intro x hx
      rw [List.map_map, List.mem_map] at hx
      obtain ⟨j, _, hjx⟩ := hx
      rw [← hjx]
      show (if a.testBit (64 + j) then (X : Polynomial (ZMod 2)) ^ (64 + j) else 0) = 0
      have : a.testBit (64 + j) = false :=
        Nat.testBit_lt_two_pow (Nat.lt_of_lt_of_le ha (Nat.pow_le_pow_right (by omega) (by omega)))
      simp [this]
    rw [hz, add_zero]
  rw [hsplit, ← List.sum_map_mul_right]
  congr 1
  apply List.map_congr_left
  intro i hi
  rw [List.mem_range] at hi
  by_cases h : a.testBit i
  · rw [if_pos h, if_pos h]
    have hbi : b <<< i < 2 ^ 128 := by
      rw [Nat.shiftLeft_eq]
      calc b * 2 ^ i < 2 ^ 64 * 2 ^ i :=
            (Nat.mul_lt_mul_right (Nat.pos_pow_of_pos _ (by omega))).mpr hb
      _ ≤ 2 ^ 64 * 2 ^ 63 := Nat.mul_le_mul_left _ (Nat.pow_le_pow_right (by omega) (by omega))
      _ ≤ 2 ^ 128 := by norm_num
    rw [toPoly_shiftLeft i hbi]
  · rw [if_neg h, if_neg h, toPoly_zero, zero_mul]

theorem toPoly_clmul_rev {u v : Nat} (hu : u < 2 ^ 32) (hv : v < 2 ^ 32) :
    toPoly (clmul (reverseBits32 u) (reverseBits32 v)) = reflect 62 (toPoly (clmul u v)) := by
  have hu64 : u < 2 ^ 64 := by omega
  have hv64 : v < 2 ^ 64 := by omega
  have hru : reverseBits32 u < 2 ^ 64 := by
    have := reverseBits32_lt u
    omega
  have hrv : reverseBits32 v < 2 ^ 64 := by
    have := reverseBits32_lt v
    omega
  rw [toPoly_clmul hru hrv, toPoly_reverseBits32 hu, toPoly_reverseBits32 hv,
    toPoly_clmul hu64 hv64, show (62 : Nat) = 31 + 31 from rfl,
    reflect_mul _ _ (toPoly_natDegree_le (by omega)) (toPoly_natDegree_le (by omega))]

theorem clmul_rev_testBit {u v : Nat} (hu : u < 2 ^ 32) (hv : v < 2 ^ 32) (k : Nat) :
    (clmul (reverseBits32 u) (reverseBits32 v)).testBit k =
      (decide (k ≤ 62) && (clmul u v).testBit (62 - k)) := by
  have hc1 : clmul (reverseBits32 u) (reverseBits32 v) < 2 ^ 63 :=
    clmul_lt (reverseBits32_lt u) (reverseBits32_lt v)
  have hc2 : clmul u v < 2 ^ 63 := clmul_lt hu hv
  have h := congrArg (fun f => Polynomial.coeff f k) (toPoly_clmul_rev hu hv)
  simp only [coeff_reflect] at h
  rw [toPoly_coeff_lt (by omega : clmul (reverseBits32 u) (reverseBits32 v) < 2 ^ 128)] at h
  rcases Nat.lt_or_ge k 63 with hk | hk
  · rw [revAt_le (show k ≤ 62 by omega),
      toPoly_coeff_lt (by omega : clmul u v < 2 ^ 128)] at h
    have hd : decide (k ≤ 62) = true := by simp; omega
    rw [hd, Bool.true_and]
    by_cases h1 : (clmul (reverseBits32 u) (reverseBits32 v)).testBit k <;>
      by_cases h2 : (clmul u v).testBit (62 - k) <;> simp [h1, h2] at h ⊢
  · have h1 : (clmul (reverseBits32 u) (reverseBits32 v)).testBit k = false :=
      Nat.testBit_lt_two_pow (Nat.lt_of_lt_of_le hc1 (Nat.pow_le_pow_right (by omega) (by omega)))
    have hd : decide (k ≤ 62) = false := by simp; omega
    rw [h1, hd, Bool.false_and]

theorem toPoly_p33 {p : Nat} (h1 : 2 ^ 32 ≤ p) (h2 : p < 2 ^ 33) :
    (toPoly p).Monic ∧ (toPoly p).natDegree = 32 ∧ (toPoly p).degree = (32 : Nat) := by
  have hp128 : p < 2 ^ 128 := by omega
  have hbit : p.testBit 32 = true := by
    rw [Nat.testBit_to_div_mod]
    have hd : p / 2 ^ 32 = 1 := by
      have hlo : 1 ≤ p / 2 ^ 32 := (Nat.le_div_iff_mul_le (by norm_num)).mpr (by omega)
      have hhi : p / 2 ^ 32 < 2 := (Nat.div_lt_iff_lt_mul (by norm_num)).mpr (by
        calc p < 2 ^ 33 := h2
        _ = 2 ^ 32 * 2 := by norm_num)
      omega
    have hd2 : p / 4294967296 = 1 := hd
    simp [hd2]
  have hcoeff : (toPoly p).coeff 32 = 1 := by
    rw [toPoly_coeff_lt hp128, hbit]
    rfl
  have hnd : (toPoly p).natDegree = 32 := by
    apply Nat.le_antisymm
    · exact toPoly_natDegree_le (by norm_num at h2 ⊢; omega)
    · exact le_natDegree_of_ne_zero (by rw [hcoeff]; exact one_ne_zero)
  have hmonic : (toPoly p).Monic :=
    monic_of_natDegree_le_of_coeff_eq_one 32 (le_of_eq hnd) hcoeff
  refine ⟨hmonic, hnd, ?_⟩
  rw [degree_eq_natDegree hmonic.ne_zero, hnd]

theorem divmod_toPoly {p a q r : Nat} (hp1 : 2 ^ 32 ≤ p) (hp2 : p < 2 ^ 33)
    (hq : q < 2 ^ 64) (hr : r < 2 ^ 64)
    (hid : clmul q p ^^^ r = a) (hdeg : blen r < blen p) :
    toPoly a /ₘ toPoly p = toPoly q ∧ toPoly a %ₘ toPoly p = toPoly r := by
  obtain ⟨hmonic, hnd, hdeg32⟩ := toPoly_p33 hp1 hp2
  have hp64 : p < 2 ^ 64 := by omega
  have hblenp : blen p = 33 := blen_eq_of_bounds (by
      rw [show (33 : Nat) - 1 = 32 from rfl]; exact hp1) hp2 (by omega) (by omega)
  have hr32 : r < 2 ^ 32 := by
    rw [← blen_le_iff hr 32]
    omega
  have hclqp : clmul q p < 2 ^ 128 := by
    have := clmul_lt hq hp2
    calc clmul q p < 2 ^ (64 + 33 - 1) := this
    _ ≤ 2 ^ 128 := by norm_num
  apply div_modByMonic_unique (toPoly q) (toPoly r) hmonic
  constructor
  · rw [← hid, toPoly_xor hclqp (by omega), toPoly_clmul hq hp64]
    ring
  · rw [hdeg32]
    exact toPoly_degree_lt hr32

/-! ### Characterizing the Barret fold -/

theorem reverseBits32_xor (a b : Nat) :
    reverseBits32 (a ^^^ b) = reverseBits32 a ^^^ reverseBits32 b := by
  apply Nat.eq_of_testBit_eq
  intro k
  rw [Nat.testBit_xor, reverseBits32_testBit, reverseBits32_testBit, reverseBits32_testBit,
    Nat.testBit_xor]
  by_cases hk : k < 32 <;> simp [hk]

theorem shiftRight_lt_pow_sub {x n k : Nat} (hx : x < 2 ^ n) (hk : k ≤ n) :
    x >>> k < 2 ^ (n - k) := by
  rw [Nat.shiftRight_eq_div_pow]
  apply (Nat.div_lt_iff_lt_mul (Nat.pos_pow_of_pos _ (by omega))).mpr
  calc x < 2 ^ n := hx
  _ = 2 ^ (n - k) * 2 ^ k := by rw [← pow_add]; congr 1; omega

theorem barret_first_mul {B x : Nat} (hB : B < 2 ^ 32) (hx : x < 2 ^ 32) :
    mask32 ((clmul x (reverseBits32 B) % 2 ^ 32) <<< 1) =
      reverseBits32 (clmul (reverseBits32 x) B >>> 32) := by
  have hy32 : reverseBits32 x < 2 ^ 32 := reverseBits32_lt x
  have hclyB : clmul (reverseBits32 x) B < 2 ^ 63 := clmul_lt hy32 hB
  have hxy : clmul x (reverseBits32 B) =
      clmul (reverseBits32 (reverseBits32 x)) (reverseBits32 B) := by
    rw [reverseBits32_involution hx]
  rw [hxy]
  apply Nat.eq_of_testBit_eq
  intro j
  unfold mask32
  rw [Nat.testBit_mod_two_pow, Nat.testBit_shiftLeft, Nat.testBit_mod_two_pow,
    clmul_rev_testBit hy32 hB, reverseBits32_testBit, Nat.testBit_shiftRight]
  by_cases hj0 : j = 0
  · subst hj0
    have h63 : (clmul (reverseBits32 x) B).testBit 63 = false := Nat.testBit_lt_two_pow hclyB
    have e1 : 32 + (31 - 0) = 63 := by omega
    simp [e1, h63]
  · by_cases hj : j < 32
    · have d1 : decide (j ≥ 1) = true := by simp; omega
      have d2 : decide (j - 1 < 32) = true := by simp; omega
      have d3 : decide (j - 1 ≤ 62) = true := by simp; omega
      have e2 : 32 + (31 - j) = 62 - (j - 1) := by omega
      simp only [hj, decide_eq_true_eq, if_true, d1, d2, d3, Bool.true_and, e2]
    · simp [hj]

theorem barret_second_mul {q Q : Nat} (hq : q < 2 ^ 32) (hQ : Q < 2 ^ 32) :
    mask32 ((clmul (reverseBits32 Q) (reverseBits32 q) >>> 32) <<< 1) |||
      ((clmul (reverseBits32 Q) (reverseBits32 q) % 2 ^ 32) >>> 31) =
      reverseBits32 (clmul Q q % 2 ^ 32) := by
  have hcl : clmul Q q < 2 ^ 63 := clmul_lt hQ hq
  apply Nat.eq_of_testBit_eq
  intro j
  unfold mask32
  rw [Nat.testBit_lor, Nat.testBit_mod_two_pow, Nat.testBit_shiftLeft,
    Nat.testBit_shiftRight, Nat.testBit_shiftRight, Nat.testBit_mod_two_pow,
    reverseBits32_testBit, Nat.testBit_mod_two_pow,
    clmul_rev_testBit hQ hq, clmul_rev_testBit hQ hq]
  by_cases hj0 : j = 0
  · subst hj0
    have d1 : decide ((0 : Nat) ≥ 1) = false := by simp
    have e1 : 31 + 0 = 31 := by omega
    have d2 : decide ((31 : Nat) < 32) = true := by simp
    have d3 : decide ((31 : Nat) ≤ 62) = true := by simp
    have e2 : 62 - 31 = 31 := by omega
    have e3 : 31 - 0 = 31 := by omega
    simp only [d1, e1, d2, d3, e2, e3, Bool.false_and, Bool.false_or, Bool.true_and]
    simp
  · by_cases hj : j < 32
    · have d1 : decide (j ≥ 1) = true := by simp; omega
      have d2 : decide (31 + j < 32) = false := by simp; omega
      have e1 : 32 + (j - 1) = 62 - (31 - j) + 31 - 31 := by omega
      have d3 : decide (32 + (j - 1) ≤ 62) = true := by simp; omega
      have e2 : 62 - (32 + (j - 1)) = 31 - j := by omega
      have d4 : decide (31 - j ≤ 62) = true := by simp; omega
      have d5 : decide (31 - j < 32) = true := by simp; omega
      simp only [hj, decide_eq_true_eq, if_true, d1, d2, d3, d4, d5, e2,
        Bool.true_and, Bool.false_and, Bool.and_false, Bool.or_false]
    · have d2 : decide (31 + j < 32) = false := by simp; omega
      simp [hj, d2]

/-! ### Exactness of the Barret reduction in GF(2)[x] -/

theorem poly_two_eq_zero : (1 + 1 : Polynomial (ZMod 2)) = 0 := by
  rw [← Polynomial.C_1, ← Polynomial.C_add]
  have h : (1 + 1 : ZMod 2) = 0 := by decide
  rw [h, Polynomial.C_0]

theorem poly_add_self (f : Polynomial (ZMod 2)) : f + f = 0 := by
  linear_combination f * poly_two_eq_zero

theorem wb_add_lt {a b : WithBot Nat} {m n : Nat} (ha : a < (m : Nat)) (hb : b < (n : Nat)) :
    a + b < ((m + n : Nat) : WithBot Nat) := by
  induction a using WithBot.recBotCoe with
  | bot => rw [WithBot.bot_add]; exact WithBot.bot_lt_coe _
  | coe x =>
    induction b using WithBot.recBotCoe with
    | bot => rw [WithBot.add_bot]; exact WithBot.bot_lt_coe _
    | coe y =>
      rw [Nat.cast_withBot] at ha hb
      have hx : x < m := WithBot.coe_lt_coe.mp ha
      have hy : y < n := WithBot.coe_lt_coe.mp hb
      rw [Nat.cast_withBot, ← WithBot.coe_add]
      exact WithBot.coe_lt_coe.mpr (by omega)

theorem wb_add_coe_lt {a : WithBot Nat} {m : Nat} (n : Nat) (ha : a < (m : Nat)) :
    a + (n : Nat) < ((m + n : Nat) : WithBot Nat) := by
  induction a using WithBot.recBotCoe with
  | bot =>
    rw [Nat.cast_withBot, WithBot.bot_add]
    exact WithBot.bot_lt_coe _
  | coe x =>
    rw [Nat.cast_withBot] at ha
    have hx : x < m := WithBot.coe_lt_coe.mp ha
    rw [Nat.cast_withBot, Nat.cast_withBot, ← WithBot.coe_add]
    exact WithBot.coe_lt_coe.mpr (by omega)

theorem X32_le_degree {V : Polynomial (ZMod 2)} (hV : V ≠ 0) :
    ((32 : Nat) : WithBot Nat) ≤ (X ^ 32 * V).degree := by
  rw [degree_mul, degree_X_pow, degree_eq_natDegree hV]
  exact_mod_cast (show (32 : Nat) ≤ 32 + V.natDegree by omega)

theorem barrett_exact {P B ρ y qlow H L1 H2 L : Polynomial (ZMod 2)}
    (hmonic : P.Monic) (hdegP : P.degree = ((32 : Nat) : WithBot Nat))
    (hP : P = X ^ 32 + qlow)
    (hX64 : (X : Polynomial (ZMod 2)) ^ 64 = (X ^ 32 + B) * P + ρ)
    (hdegρ : ρ.degree < ((32 : Nat) : WithBot Nat))
    (hdegy : y.degree < ((32 : Nat) : WithBot Nat))
    (hyB : y * B = X ^ 32 * H + L1)
    (hdegL1 : L1.degree < ((32 : Nat) : WithBot Nat))
    (hQq : (H + y) * qlow = X ^ 32 * H2 + L)
    (hdegL : L.degree < ((32 : Nat) : WithBot Nat)) :
    (y * X ^ 32) %ₘ P = L := by
  have hdiv := modByMonic_add_div (y * X ^ 32) hmonic
  set Qs := (y * X ^ 32) /ₘ P with hQs
  set rs := (y * X ^ 32) %ₘ P with hrs
  have hdegrs : rs.degree < ((32 : Nat) : WithBot Nat) := by
    rw [← hdegP]
    exact degree_modByMonic_lt _ hmonic
  have ha1 : P * (Qs * X ^ 32 - y * X ^ 32 - y * B) = y * ρ - rs * X ^ 32 := by
    linear_combination y * hX64 + X ^ 32 * hdiv
  have ha2 : P * (X ^ 32 * (Qs - y - H) - L1) = y * ρ - rs * X ^ 32 := by
    linear_combination ha1 + P * hyB
  have hQsQ : Qs = y + H := by
    by_contra hne
    have hV : Qs - y - H ≠ 0 := fun h0 => hne (by linear_combination h0)
    have hinner : ((32 : Nat) : WithBot Nat) ≤ (X ^ 32 * (Qs - y - H) - L1).degree := by
      rw [degree_sub_eq_left_of_degree_lt (lt_of_lt_of_le hdegL1 (X32_le_degree hV))]
      exact X32_le_degree hV
    have hne2 : (X ^ 32 * (Qs - y - H) - L1) ≠ 0 := by
      intro h0
      rw [h0, degree_zero, le_bot_iff] at hinner
      rw [Nat.cast_withBot] at hinner
      exact WithBot.coe_ne_bot hinner
    have hlhs : ((64 : Nat) : WithBot Nat) ≤ (P * (X ^ 32 * (Qs - y - H) - L1)).degree := by
      rw [degree_mul, hdegP, degree_eq_natDegree hne2]
      rw [degree_eq_natDegree hne2] at hinner
      rw [Nat.cast_withBot, Nat.cast_withBot] at hinner
      have h32 : 32 ≤ (X ^ 32 * (Qs - y - H) - L1).natDegree := WithBot.coe_le_coe.mp hinner
      rw [Nat.cast_withBot, Nat.cast_withBot, Nat.cast_withBot, ← WithBot.coe_add]
      exact WithBot.coe_le_coe.mpr (by omega)
    have hrhs : (y * ρ - rs * X ^ 32).degree < ((64 : Nat) : WithBot Nat) := by
      apply lt_of_le_of_lt (degree_sub_le _ _)
      apply max_lt
      · apply lt_of_le_of_lt (degree_mul_le _ _)
        have h := wb_add_lt hdegy hdegρ
        have he : ((32 + 32 : Nat) : WithBot Nat) = ((64 : Nat) : WithBot Nat) := by norm_num
        rwa [he] at h
      · rw [degree_mul, degree_X_pow]
        have h := wb_add_coe_lt 32 hdegrs
        have he : ((32 + 32 : Nat) : WithBot Nat) = ((64 : Nat) : WithBot Nat) := by norm_num
        rwa [he] at h
    rw [ha2] at hlhs
    exact absurd (lt_of_le_of_lt hlhs hrhs) (lt_irrefl _)
  have hdiv2 : rs + P * (y + H) = y * X ^ 32 := by
    rw [← hQsQ]
    exact hdiv
  have h1 : rs = y * X ^ 32 - P * (H + y) := by linear_combination hdiv2
  have h2 : P * (H + y) = X ^ 32 * H + X ^ 32 * y + X ^ 32 * H2 + L := by
    rw [hP]
    linear_combination hQq
  have h3 : rs + L = -(X ^ 32 * (H + H2)) := by linear_combination h1 - h2
  have hHH : H + H2 = 0 := by
    by_contra hne
    have hle : ((32 : Nat) : WithBot Nat) ≤ (-(X ^ 32 * (H + H2))).degree := by
      rw [degree_neg]
      exact X32_le_degree hne
    rw [← h3] at hle
    have hlt : (rs + L).degree < ((32 : Nat) : WithBot Nat) :=
      lt_of_le_of_lt (degree_add_le _ _) (max_lt hdegrs hdegL)
    exact absurd (lt_of_le_of_lt hle hlt) (lt_irrefl _)
  have hzero : rs + L = 0 := by rw [h3, hHH, mul_zero, neg_zero]
  calc rs = rs + (L + L) := by rw [poly_add_self, add_zero]
  _ = (rs + L) + L := by ring
  _ = L := by rw [hzero, zero_add]

theorem barretFold_eq {B q x : Nat} (c : Crc32) (hB : B < 2 ^ 32) (hq : q < 2 ^ 32)
    (hbr : c.b_r = reverseBits32 B) (hpr : c.p_r = reverseBits32 q) (hx : x < 2 ^ 32) :
    barretFold c x =
      reverseBits32 (clmul ((clmul (reverseBits32 x) B >>> 32) ^^^ reverseBits32 x) q % 2 ^ 32) := by
  have hy32 : reverseBits32 x < 2 ^ 32 := reverseBits32_lt x
  have hclyB : clmul (reverseBits32 x) B < 2 ^ 63 := clmul_lt hy32 hB
  have hQ32 : (clmul (reverseBits32 x) B >>> 32) ^^^ reverseBits32 x < 2 ^ 32 := by
    apply Nat.xor_lt_two_pow ?_ hy32
    have h := shiftRight_lt_pow_sub hclyB (by omega : 32 ≤ 63)
    calc clmul (reverseBits32 x) B >>> 32 < 2 ^ (63 - 32) := h
    _ ≤ 2 ^ 32 := by norm_num
  show mask32 ((pmul32 (mask32 ((pmul32 x c.b_r).1 <<< 1) ^^^ x) c.p_r).2 <<< 1) |||
      ((pmul32 (mask32 ((pmul32 x c.b_r).1 <<< 1) ^^^ x) c.p_r).1 >>> 31) = _
  have hlo : (pmul32 x c.b_r).1 = clmul x (reverseBits32 B) % 2 ^ 32 := by
    rw [hbr, pmul32_eq x _ hx (reverseBits32_lt B)]
  have hA2 : mask32 ((pmul32 x c.b_r).1 <<< 1) ^^^ x =
      reverseBits32 ((clmul (reverseBits32 x) B >>> 32) ^^^ reverseBits32 x) := by
    rw [hlo, barret_first_mul hB hx, reverseBits32_xor]
    congr 1
    exact (reverseBits32_involution hx).symm
  rw [hA2]
  have ht32 : reverseBits32 ((clmul (reverseBits32 x) B >>> 32) ^^^ reverseBits32 x) < 2 ^ 32 :=
    reverseBits32_lt _
  have hsnd : (pmul32 (reverseBits32 ((clmul (reverseBits32 x) B >>> 32) ^^^ reverseBits32 x))
      c.p_r).2 =
      clmul (reverseBits32 ((clmul (reverseBits32 x) B >>> 32) ^^^ reverseBits32 x))
        (reverseBits32 q) >>> 32 := by
    rw [hpr, pmul32_eq _ _ ht32 (reverseBits32_lt q)]
  have hfst : (pmul32 (reverseBits32 ((clmul (reverseBits32 x) B >>> 32) ^^^ reverseBits32 x))
      c.p_r).1 =
      clmul (reverseBits32 ((clmul (reverseBits32 x) B >>> 32) ^^^ reverseBits32 x))
        (reverseBits32 q) % 2 ^ 32 := by
    rw [hpr, pmul32_eq _ _ ht32 (reverseBits32_lt q)]
  rw [hsnd, hfst, barret_second_mul hq hQ32]

theorem toPoly_one : toPoly 1 = 1 := by
  apply Polynomial.ext
  intro n
  rw [toPoly_coeff, show (1 : Nat) = 2 ^ 0 from rfl, Nat.testBit_two_pow, coeff_one]
  by_cases hn : n = 0
  · subst hn
    simp
  · simp [hn, Ne.symm hn]

theorem toPoly_two_pow {k : Nat} (hk : k < 128) : toPoly (2 ^ k) = X ^ k := by
  apply Polynomial.ext
  intro n
  rw [toPoly_coeff, Nat.testBit_two_pow, coeff_X_pow]
  by_cases hn : n = k
  · subst hn
    simp [hk]
  · simp [hn, Ne.symm hn]

theorem quotient_lt_two_pow_32 {p a q r : Nat} (hp1 : 2 ^ 32 ≤ p) (hp2 : p < 2 ^ 33)
    (ha : a < 2 ^ 64) (hq : q < 2 ^ 64) (hr32 : r < 2 ^ 32)
    (hid : clmul q p ^^^ r = a) : q < 2 ^ 32 := by
  by_contra hcon
  push_neg at hcon
  have h32pos : (0 : Nat) < 2 ^ 32 := by norm_num
  have hqne : q ≠ 0 := by omega
  have hpne : p ≠ 0 := by omega
  have hp64 : p < 2 ^ 64 := by
    have : (2 : Nat) ^ 33 ≤ 2 ^ 64 := by norm_num
    omega
  have hblenq : 33 ≤ blen q := by
    by_contra h2
    have h3 : blen q ≤ 32 := by omega
    rw [blen_le_iff hq 32] at h3
    omega
  have hblenp : blen p = 33 :=
    blen_eq_of_bounds (by rw [show (33 : Nat) - 1 = 32 from rfl]; exact hp1) hp2
      (by omega) (by omega)
  have hlead := clmul_leading hqne hpne hq hp64
  have hclqp : clmul q p = a ^^^ r := by
    rw [← hid, Nat.xor_assoc, Nat.xor_self, Nat.xor_zero]
  rw [hclqp] at hlead
  have hr64 : r < 2 ^ 64 := by
    have : (2 : Nat) ^ 32 ≤ 2 ^ 64 := by norm_num
    omega
  have hfalse : (a ^^^ r).testBit ((blen q - 1) + (blen p - 1)) = false := by
    apply Nat.testBit_lt_two_pow
    apply Nat.lt_of_lt_of_le (Nat.xor_lt_two_pow ha hr64)
    apply Nat.pow_le_pow_right (by omega)
    omega
  rw [hfalse] at hlead
  exact Bool.noConfusion hlead

theorem p_split {p : Nat} (hp1 : 2 ^ 32 ≤ p) (hp2 : p < 2 ^ 33) :
    (2 ^ 32) ^^^ mask32 p = p := by
  have hdm := Nat.div_add_mod p (2 ^ 32)
  have hd1 : p / 2 ^ 32 = 1 := by
    have hlo : 1 ≤ p / 2 ^ 32 := (Nat.le_div_iff_mul_le (by norm_num)).mpr (by omega)
    have hhi : p / 2 ^ 32 < 2 := (Nat.div_lt_iff_lt_mul (by norm_num)).mpr (by
      calc p < 2 ^ 33 := hp2
      _ = 2 ^ 32 * 2 := by norm_num)
    omega
  have h1 : (1 <<< 32) ^^^ mask32 p = 1 <<< 32 + mask32 p := shiftLeft_xor_small (mask32_lt p)
  have h2 : (1 : Nat) <<< 32 = 2 ^ 32 := by rw [Nat.shiftLeft_eq, Nat.one_mul]
  rw [← h2, h1, h2]
  show 2 ^ 32 + p % 2 ^ 32 = p
  omega

theorem shiftLeft32_shiftRight64 {p : Nat} (hp1 : 2 ^ 32 ≤ p) (hp2 : p < 2 ^ 33) :
    (p <<< 32) >>> 64 = 1 := by
  rw [Nat.shiftLeft_eq, Nat.shiftRight_eq_div_pow]
  have h : (2 : Nat) ^ 64 = 2 ^ 32 * 2 ^ 32 := by norm_num
  rw [h, ← Nat.div_div_eq_div_mul, Nat.mul_div_cancel _ (by norm_num : (0 : Nat) < 2 ^ 32)]
  have hlo : 1 ≤ p / 2 ^ 32 := (Nat.le_div_iff_mul_le (by norm_num)).mpr (by omega)
  have hhi : p / 2 ^ 32 < 2 := (Nat.div_lt_iff_lt_mul (by norm_num)).mpr (by
    calc p < 2 ^ 33 := hp2
    _ = 2 ^ 32 * 2 := by norm_num)
  omega

theorem crc32_new_fields {p : Nat} {c : Crc32} {Bq : Nat}
    (hdivq : pdiv64 (mask64 (p <<< 32)) p = some Bq) (hBq32 : Bq < 2 ^ 32)
    (hc : Crc32.new p = some c) :
    c.b_r = reverseBits32 Bq ∧ c.p_r = reverseBits32 (mask32 p) := by
  unfold Crc32.new at hc
  rw [hdivq] at hc
  simp only [Option.map_some'] at hc
  have hrec := Option.some_injective _ hc
  constructor
  · rw [← hrec]
    show reverseBits32 (mask32 Bq) = reverseBits32 Bq
    unfold mask32
    rw [Nat.mod_eq_of_lt hBq32]
  · rw [← hrec]

theorem barretFold_poly {p : Nat} (hp1 : 2 ^ 32 ≤ p) (hp2 : p < 2 ^ 33) {c : Crc32}
    (hc : Crc32.new p = some c) {x : Nat} (hx : x < 2 ^ 32) :
    toPoly (reverseBits32 (barretFold c x)) =
      (toPoly (reverseBits32 x) * X ^ 32) %ₘ toPoly p := by
  have h32pos : (0 : Nat) < 2 ^ 32 := by norm_num
  have hp64 : p < 2 ^ 64 := by
    have : (2 : Nat) ^ 33 ≤ 2 ^ 64 := by norm_num
    omega
  have hpne : p ≠ 0 := by omega
  obtain ⟨Bq, ρ, hdivq, _, hBq64, hρ64, hid, hdeg⟩ :=
    pdivmod64_facts (mask64 (p <<< 32)) p (mask64_lt _) hpne hp64
  have hblenp : blen p = 33 :=
    blen_eq_of_bounds (by rw [show (33 : Nat) - 1 = 32 from rfl]; exact hp1) hp2
      (by omega) (by omega)
  have hρ32 : ρ < 2 ^ 32 := by
    rw [← blen_le_iff hρ64 32]
    omega
  have hBq32 : Bq < 2 ^ 32 := quotient_lt_two_pow_32 hp1 hp2 (mask64_lt _) hBq64 hρ32 hid
  obtain ⟨hbr, hpr⟩ := crc32_new_fields hdivq hBq32 hc
  rw [barretFold_eq c hBq32 (mask32_lt p) hbr hpr hx,
    reverseBits32_involution (Nat.mod_lt _ h32pos)]
  obtain ⟨hmonic, _, hdegP⟩ := toPoly_p33 hp1 hp2
  have hy32 : reverseBits32 x < 2 ^ 32 := reverseBits32_lt x
  have hy64 : reverseBits32 x < 2 ^ 64 := by omega
  have hy128 : reverseBits32 x < 2 ^ 128 := by omega
  have hBq128 : Bq < 2 ^ 128 := by omega
  have hclyB : clmul (reverseBits32 x) Bq < 2 ^ 63 := clmul_lt hy32 hBq32
  have hclyB128 : clmul (reverseBits32 x) Bq < 2 ^ 128 := by omega
  have hH32 : clmul (reverseBits32 x) Bq >>> 32 < 2 ^ 32 := by
    have h := shiftRight_lt_pow_sub hclyB (by omega : 32 ≤ 63)
    calc clmul (reverseBits32 x) Bq >>> 32 < 2 ^ (63 - 32) := h
    _ ≤ 2 ^ 32 := by norm_num
  have hQ32 : (clmul (reverseBits32 x) Bq >>> 32) ^^^ reverseBits32 x < 2 ^ 32 :=
    Nat.xor_lt_two_pow hH32 hy32
  have hQ64 : (clmul (reverseBits32 x) Bq >>> 32) ^^^ reverseBits32 x < 2 ^ 64 := by omega
  have hmp64 : mask32 p < 2 ^ 64 := by
    have := mask32_lt p
    omega
  have hclQq : clmul ((clmul (reverseBits32 x) Bq >>> 32) ^^^ reverseBits32 x) (mask32 p) <
      2 ^ 63 := clmul_lt hQ32 (mask32_lt p)
  have hclQq128 : clmul ((clmul (reverseBits32 x) Bq >>> 32) ^^^ reverseBits32 x) (mask32 p) <
      2 ^ 128 := by omega
  -- the split of the generator
  have hP : toPoly p = X ^ 32 + toPoly (mask32 p) := by
    rw [← p_split hp1 hp2, toPoly_xor (by norm_num : (2 : Nat) ^ 32 < 2 ^ 128)
      (by have := mask32_lt p; omega), toPoly_two_pow (by omega : 32 < 128)]
    rw [p_split hp1 hp2]
  -- the defining identity of the Barret constant, in polynomial form
  have hsl128 : p <<< 32 < 2 ^ 128 := by
    rw [Nat.shiftLeft_eq]
    calc p * 2 ^ 32 < 2 ^ 33 * 2 ^ 32 :=
          (Nat.mul_lt_mul_right (by norm_num)).mpr hp2
    _ ≤ 2 ^ 128 := by norm_num
  have hA : X ^ 32 * toPoly p = X ^ 64 * toPoly 1 + toPoly (mask64 (p <<< 32)) := by
    rw [← toPoly_shiftLeft 32 hsl128]
    have hdc := toPoly_decompose 64 hsl128
    rw [shiftLeft32_shiftRight64 hp1 hp2] at hdc
    exact hdc
  rw [toPoly_one, mul_one] at hA
  have hclBqp128 : clmul Bq p < 2 ^ 128 := by
    have := clmul_lt hBq64 hp2
    calc clmul Bq p < 2 ^ (64 + 33 - 1) := this
    _ ≤ 2 ^ 128 := by norm_num
  have hρ128 : ρ < 2 ^ 128 := by omega
  have hB : toPoly (mask64 (p <<< 32)) = toPoly Bq * toPoly p + toPoly ρ := by
    rw [← hid, toPoly_xor hclBqp128 hρ128, toPoly_clmul hBq64 hp64]
  have hX64 : (X : Polynomial (ZMod 2)) ^ 64 = (X ^ 32 + toPoly Bq) * toPoly p + toPoly ρ := by
    linear_combination -hA - hB - poly_add_self (toPoly Bq * toPoly p + toPoly ρ)
  -- decomposition of the first product
  have hyB : toPoly (reverseBits32 x) * toPoly Bq =
      X ^ 32 * toPoly (clmul (reverseBits32 x) Bq >>> 32) +
        toPoly (clmul (reverseBits32 x) Bq % 2 ^ 32) := by
    rw [← toPoly_clmul hy64 hBq64]
    exact toPoly_decompose 32 hclyB128
  -- decomposition of the second product
  have hQq : (toPoly (clmul (reverseBits32 x) Bq >>> 32) + toPoly (reverseBits32 x)) *
      toPoly (mask32 p) =
      X ^ 32 * toPoly (clmul ((clmul (reverseBits32 x) Bq >>> 32) ^^^ reverseBits32 x)
        (mask32 p) >>> 32) +
      toPoly (clmul ((clmul (reverseBits32 x) Bq >>> 32) ^^^ reverseBits32 x)
        (mask32 p) % 2 ^ 32) := by
    rw [← toPoly_xor (by omega : clmul (reverseBits32 x) Bq >>> 32 < 2 ^ 128)
      (by omega : reverseBits32 x < 2 ^ 128)]
    rw [← toPoly_clmul hQ64 hmp64]
    exact toPoly_decompose 32 hclQq128
  exact (barrett_exact hmonic hdegP hP hX64 (toPoly_degree_lt hρ32)
    (toPoly_degree_lt hy32) hyB
    (toPoly_degree_lt (Nat.mod_lt _ h32pos)) hQq
    (toPoly_degree_lt (Nat.mod_lt _ h32pos))).symm

/-! ### The two update steps in polynomial form -/

theorem reverseBits32_shiftRight8 {v : Nat} (hv : v < 2 ^ 32) :
    reverseBits32 (v >>> 8) = mask32 (reverseBits32 v <<< 8) := by
  apply Nat.eq_of_testBit_eq
  intro j
  unfold mask32
  rw [reverseBits32_testBit, Nat.testBit_shiftRight, Nat.testBit_mod_two_pow,
    Nat.testBit_shiftLeft, reverseBits32_testBit]
  by_cases hj : j < 32
  · by_cases hj8 : 8 ≤ j
    · have e1 : 8 + (31 - j) = 31 - (j - 8) := by omega
      have d1 : decide (31 - (j - 8) < 32) = true := by
        simp only [decide_eq_true_eq]
        omega
      simp only [hj, decide_eq_true_eq, if_true, Bool.true_and, e1, hj8, d1]
      simp [hj, hj8]
      intro _
      omega
    · have hbig : v.testBit (8 + (31 - j)) = false := by
        apply Nat.testBit_lt_two_pow
        apply Nat.lt_of_lt_of_le hv
        apply Nat.pow_le_pow_right (by omega)
        omega
      simp [hj, hj8, hbig]
  · simp [hj]

theorem reverseBits32_shiftLeft24 (v : Nat) :
    reverseBits32 (mask32 (v <<< 24)) = reverseBits32 v >>> 24 := by
  apply Nat.eq_of_testBit_eq
  intro j
  rw [reverseBits32_testBit, Nat.testBit_shiftRight, reverseBits32_testBit]
  unfold mask32
  rw [Nat.testBit_mod_two_pow, Nat.testBit_shiftLeft]
  by_cases hj : j ≤ 7
  · have d0 : decide (j < 32) = true := by simp; omega
    have d1 : decide (31 - j < 32) = true := by
      simp only [decide_eq_true_eq]
      omega
    have d2 : decide (31 - j ≥ 24) = true := by simp; omega
    have d3 : decide (24 + j < 32) = true := by simp; omega
    have e1 : 31 - j - 24 = 31 - (24 + j) := by omega
    simp only [d0, d1, d2, d3, e1, Bool.true_and]
  · by_cases hj32 : j < 32
    · have d1 : decide (31 - j ≥ 24) = false := by simp; omega
      have d3 : decide (24 + j < 32) = false := by simp; omega
      simp [d1, d3, hj32]
    · have d3 : decide (24 + j < 32) = false := by simp; omega
      simp [hj32, d3]

theorem reverseBits32_shiftLeft_general (v k : Nat) :
    reverseBits32 (v <<< k) = reverseBits32 v >>> k := by
  apply Nat.eq_of_testBit_eq
  intro j
  rw [reverseBits32_testBit, Nat.testBit_shiftRight, reverseBits32_testBit,
    Nat.testBit_shiftLeft]
  by_cases hj : j < 32
  · by_cases hk : k + j < 32
    · have d1 : decide (31 - j ≥ k) = true := by simp; omega
      have d2 : decide (k + j < 32) = true := by simp; omega
      have e1 : 31 - j - k = 31 - (k + j) := by omega
      simp only [hj, decide_eq_true_eq, if_true, d1, d2, e1, Bool.true_and]
      simp
    · have d1 : decide (31 - j ≥ k) = false := by simp; omega
      have d2 : decide (k + j < 32) = false := by simp; omega
      simp [d1, d2, hj]
  · by_cases hk : k + j < 32
    · omega
    · have d2 : decide (k + j < 32) = false := by simp; omega
      simp [hj, d2]

theorem reverseBits32_mod_eq_zero {β k : Nat} (hβ : β < 2 ^ (32 - k)) (hk : k ≤ 32) :
    reverseBits32 β % 2 ^ k = 0 := by
  apply Nat.eq_of_testBit_eq
  intro j
  rw [Nat.testBit_mod_two_pow, Nat.zero_testBit, reverseBits32_testBit]
  by_cases hjk : j < k
  · have hb : β.testBit (31 - j) = false := by
      apply Nat.testBit_lt_two_pow
      apply Nat.lt_of_lt_of_le hβ
      apply Nat.pow_le_pow_right (by omega)
      omega
    simp [hjk, hb]
  · simp [hjk]

theorem phi_shiftLeft {β k : Nat} (hβ : β < 2 ^ (32 - k)) (hk : k ≤ 32) :
    toPoly (reverseBits32 (β <<< k)) * X ^ k = toPoly (reverseBits32 β) := by
  rw [reverseBits32_shiftLeft_general]
  have hr128 : reverseBits32 β < 2 ^ 128 := by
    have := reverseBits32_lt β
    omega
  have hdec := toPoly_decompose k hr128
  rw [reverseBits32_mod_eq_zero hβ hk, toPoly_zero, add_zero] at hdec
  rw [mul_comm]
  exact hdec.symm

theorem fromLeBytes4_lt {b0 b1 b2 b3 : Nat} (h0 : b0 < 256) (h1 : b1 < 256)
    (h2 : b2 < 256) (h3 : b3 < 256) : fromLeBytes4 [b0, b1, b2, b3] < 2 ^ 32 := by
  show b0 + 2 ^ 8 * b1 + 2 ^ 16 * b2 + 2 ^ 24 * b3 < 2 ^ 32
  norm_num
  omega

theorem fromLeBytes4_xor {b0 b1 b2 b3 : Nat} (h0 : b0 < 256) (h1 : b1 < 256)
    (h2 : b2 < 256) (h3 : b3 < 256) :
    fromLeBytes4 [b0, b1, b2, b3] = b3 <<< 24 ^^^ (b2 <<< 16 ^^^ (b1 <<< 8 ^^^ b0)) := by
  have e1 : b1 <<< 8 ^^^ b0 = b1 <<< 8 + b0 := shiftLeft_xor_small (by omega)
  have hr2 : b1 <<< 8 + b0 < 2 ^ 16 := by
    rw [Nat.shiftLeft_eq]
    norm_num
    omega
  have e2 : b2 <<< 16 ^^^ (b1 <<< 8 + b0) = b2 <<< 16 + (b1 <<< 8 + b0) :=
    shiftLeft_xor_small hr2
  have hr3 : b2 <<< 16 + (b1 <<< 8 + b0) < 2 ^ 24 := by
    rw [Nat.shiftLeft_eq] at hr2 ⊢
    norm_num at hr2 ⊢
    omega
  have e3 : b3 <<< 24 ^^^ (b2 <<< 16 + (b1 <<< 8 + b0)) =
      b3 <<< 24 + (b2 <<< 16 + (b1 <<< 8 + b0)) := shiftLeft_xor_small hr3
  rw [e1, e2, e3]
  show b0 + 2 ^ 8 * b1 + 2 ^ 16 * b2 + 2 ^ 24 * b3 = _
  rw [Nat.shiftLeft_eq, Nat.shiftLeft_eq, Nat.shiftLeft_eq]
  ring

/-! ### Reassembling the loop bodies modulo the generator -/

theorem phi_inj {u v : Nat} (hu : u < 2 ^ 32) (hv : v < 2 ^ 32)
    (h : toPoly (reverseBits32 u) = toPoly (reverseBits32 v)) : u = v := by
  have hru : reverseBits32 u < 2 ^ 128 := by
    have := reverseBits32_lt u
    omega
  have hrv : reverseBits32 v < 2 ^ 128 := by
    have := reverseBits32_lt v
    omega
  have h2 := toPoly_inj hru hrv h
  have h3 := congrArg reverseBits32 h2
  rwa [reverseBits32_involution hu, reverseBits32_involution hv] at h3

theorem phi_xor (a b : Nat) :
    toPoly (reverseBits32 (a ^^^ b)) =
      toPoly (reverseBits32 a) + toPoly (reverseBits32 b) := by
  rw [reverseBits32_xor, toPoly_xor (by have := reverseBits32_lt a; omega)
    (by have := reverseBits32_lt b; omega)]

theorem modByMonic_mul_absorb {P : Polynomial (ZMod 2)} (hm : P.Monic)
    (a t : Polynomial (ZMod 2)) : ((a %ₘ P) * t) %ₘ P = (a * t) %ₘ P := by
  have he : a * t = (a %ₘ P) * t + P * ((a /ₘ P) * t) := by
    have h := modByMonic_add_div a hm
    linear_combination -t * h
  rw [he, add_modByMonic, (modByMonic_eq_zero_iff_dvd hm).mpr (dvd_mul_right P _), add_zero]

theorem modByMonic_absorb {P : Polynomial (ZMod 2)} (hm : P.Monic)
    (a d t : Polynomial (ZMod 2)) : ((a %ₘ P + d) * t) %ₘ P = ((a + d) * t) %ₘ P := by
  have h1 : (a %ₘ P + d) * t = (a %ₘ P) * t + d * t := by ring
  have h2 : (a + d) * t = a * t + d * t := by ring
  rw [h1, h2, add_modByMonic, add_modByMonic, modByMonic_mul_absorb hm]

theorem byteStep_poly {p : Nat} (hp1 : 2 ^ 32 ≤ p) (hp2 : p < 2 ^ 33) {c : Crc32}
    (hc : Crc32.new p = some c) {crc b : Nat} (hcrc : crc < 2 ^ 32) (hb : b < 2 ^ 32) :
    toPoly (reverseBits32 (byteStep c crc b)) =
      (toPoly (reverseBits32 (crc ^^^ b)) * X ^ 8) %ₘ toPoly p := by
  have hz : crc ^^^ b < 2 ^ 32 := Nat.xor_lt_two_pow hcrc hb
  show toPoly (reverseBits32
      (((crc ^^^ b) >>> 8) ^^^ barretFold c (mask32 ((crc ^^^ b) <<< 24)))) = _
  generalize hg : crc ^^^ b = z
  rw [hg] at hz
  obtain ⟨hmonic, _, hdegP⟩ := toPoly_p33 hp1 hp2
  have hrz : reverseBits32 z < 2 ^ 32 := reverseBits32_lt z
  have hrz128 : reverseBits32 z < 2 ^ 128 := by omega
  rw [reverseBits32_xor,
    toPoly_xor (by have := reverseBits32_lt (z >>> 8); omega)
      (by have := reverseBits32_lt (barretFold c (mask32 (z <<< 24))); omega)]
  have hbar := barretFold_poly hp1 hp2 hc (mask32_lt (z <<< 24))
  rw [reverseBits32_shiftLeft24] at hbar
  have hlow : reverseBits32 (z >>> 8) = (reverseBits32 z % 2 ^ 24) <<< 8 := by
    rw [reverseBits32_shiftRight8 hz]
    show (reverseBits32 z <<< 8) % 2 ^ 32 = _
    rw [Nat.shiftLeft_eq, Nat.shiftLeft_eq,
      show (2 : Nat) ^ 32 = 2 ^ 24 * 2 ^ 8 by norm_num,
      Nat.mul_mod_mul_right]
  have h24 : reverseBits32 z % 2 ^ 24 < 2 ^ 24 := Nat.mod_lt _ (by norm_num)
  have hlt32 : (reverseBits32 z % 2 ^ 24) <<< 8 < 2 ^ 32 := by
    rw [Nat.shiftLeft_eq]
    calc (reverseBits32 z % 2 ^ 24) * 2 ^ 8 < 2 ^ 24 * 2 ^ 8 :=
          (Nat.mul_lt_mul_right (by norm_num)).mpr h24
    _ = 2 ^ 32 := by norm_num
  have hsl128 : (reverseBits32 z % 2 ^ 24) <<< 8 < 2 ^ 128 := by omega
  rw [hlow, toPoly_shiftLeft 8 hsl128, hbar]
  have hdec := toPoly_decompose 24 hrz128
  have hrwgoal : toPoly (reverseBits32 z) * X ^ 8 =
      toPoly (reverseBits32 z >>> 24) * X ^ 32 +
        X ^ 8 * toPoly (reverseBits32 z % 2 ^ 24) := by
    linear_combination X ^ 8 * hdec
  rw [hrwgoal, add_modByMonic]
  have hself : (X ^ 8 * toPoly (reverseBits32 z % 2 ^ 24)) %ₘ toPoly p =
      X ^ 8 * toPoly (reverseBits32 z % 2 ^ 24) := by
    rw [modByMonic_eq_self_iff hmonic, hdegP, ← toPoly_shiftLeft 8 hsl128]
    exact toPoly_degree_lt hlt32
  rw [hself]
  ring

theorem wordStep_eq_byteSteps {p : Nat} (hp1 : 2 ^ 32 ≤ p) (hp2 : p < 2 ^ 33) {c : Crc32}
    (hc : Crc32.new p = some c) {s b0 b1 b2 b3 : Nat} (hs : s < 2 ^ 32)
    (h0 : b0 < 256) (h1 : b1 < 256) (h2 : b2 < 256) (h3 : b3 < 256) :
    wordStep c s [b0, b1, b2, b3] =
      byteStep c (byteStep c (byteStep c (byteStep c s b0) b1) b2) b3 := by
  obtain ⟨hmonic, _, hdegP⟩ := toPoly_p33 hp1 hp2
  have hb0 : b0 < 2 ^ 32 := by omega
  have hb1 : b1 < 2 ^ 32 := by omega
  have hb2 : b2 < 2 ^ 32 := by omega
  have hb3 : b3 < 2 ^ 32 := by omega
  have hR1 : byteStep c s b0 < 2 ^ 32 := byteStep_lt c hs hb0
  have hR2 : byteStep c (byteStep c s b0) b1 < 2 ^ 32 := byteStep_lt c hR1 hb1
  have hR3 : byteStep c (byteStep c (byteStep c s b0) b1) b2 < 2 ^ 32 := byteStep_lt c hR2 hb2
  have hR4 : byteStep c (byteStep c (byteStep c (byteStep c s b0) b1) b2) b3 < 2 ^ 32 :=
    byteStep_lt c hR3 hb3
  have hW : fromLeBytes4 [b0, b1, b2, b3] < 2 ^ 32 := fromLeBytes4_lt h0 h1 h2 h3
  apply phi_inj (wordStep_lt c s _) hR4
  have hxW : s ^^^ fromLeBytes4 [b0, b1, b2, b3] < 2 ^ 32 := Nat.xor_lt_two_pow hs hW
  have hL := barretFold_poly hp1 hp2 hc hxW
  have e1 := byteStep_poly hp1 hp2 hc hs hb0
  have e2 := byteStep_poly hp1 hp2 hc hR1 hb1
  have e3 := byteStep_poly hp1 hp2 hc hR2 hb2
  have e4 := byteStep_poly hp1 hp2 hc hR3 hb3
  rw [phi_xor] at e1 e2 e3 e4 hL
  rw [e1, modByMonic_absorb hmonic] at e2
  rw [e2, modByMonic_absorb hmonic] at e3
  rw [e3, modByMonic_absorb hmonic] at e4
  show toPoly (reverseBits32 (barretFold c (s ^^^ fromLeBytes4 [b0, b1, b2, b3]))) = _
  rw [hL, e4]
  have hWx : toPoly (reverseBits32 (fromLeBytes4 [b0, b1, b2, b3])) =
      toPoly (reverseBits32 (b3 <<< 24)) + (toPoly (reverseBits32 (b2 <<< 16)) +
        (toPoly (reverseBits32 (b1 <<< 8)) + toPoly (reverseBits32 b0))) := by
    rw [fromLeBytes4_xor h0 h1 h2 h3, phi_xor, phi_xor, phi_xor]
  have g1 : toPoly (reverseBits32 (b1 <<< 8)) * X ^ 8 = toPoly (reverseBits32 b1) :=
    phi_shiftLeft (lt_of_lt_of_le h1 (by norm_num)) (by norm_num)
  have g2 : toPoly (reverseBits32 (b2 <<< 16)) * X ^ 16 = toPoly (reverseBits32 b2) :=
    phi_shiftLeft (lt_of_lt_of_le h2 (by norm_num)) (by norm_num)
  have g3 : toPoly (reverseBits32 (b3 <<< 24)) * X ^ 24 = toPoly (reverseBits32 b3) :=
    phi_shiftLeft (lt_of_lt_of_le h3 (by norm_num)) (by norm_num)
  congr 1
  rw [hWx]
  linear_combination (X ^ 24 : Polynomial (ZMod 2)) * g1 + X ^ 16 * g2 + X ^ 8 * g3

theorem chunksExact4_chunk_shape (l : List Nat) :
    ∀ w ∈ (chunksExact4 l).1, ∃ b0 b1 b2 b3, w = [b0, b1, b2, b3] := by
  induction l using chunksExact4.induct with
  | case1 b0 b1 b2 b3 rest ih =>
    intro w hw
    have hw2 : w ∈ ([b0, b1, b2, b3] :: (chunksExact4 rest).1) := hw
    rcases List.mem_cons.mp hw2 with he | hm
    · exact ⟨b0, b1, b2, b3, he⟩
    · exact ih w hm
  | case2 rest h =>
    intro w hw
    have hnone : chunksExact4 rest = ([], rest) := by
      unfold chunksExact4
      cases rest with
      | nil => rfl
      | cons x xs =>
        cases xs with
        | nil => rfl
        | cons y ys =>
          cases ys with
          | nil => rfl
          | cons z zs =>
            cases zs with
            | nil => rfl
            | cons w2 ws => exact absurd rfl (h x y z w2 ws)
    rw [hnone] at hw
    cases hw

theorem chunksExact4_chunk_bytes {l : List Nat} (hl : ∀ b ∈ l, b < 256) :
    ∀ w ∈ (chunksExact4 l).1, ∀ b ∈ w, b < 256 := by
  intro w hw b hb
  apply hl
  have hflat : b ∈ (chunksExact4 l).1.flatten := List.mem_flatten.mpr ⟨w, hw, hb⟩
  rw [← chunksExact4_join l]
  exact List.mem_append.mpr (Or.inl hflat)

theorem chunksExact4_rem_bytes {l : List Nat} (hl : ∀ b ∈ l, b < 256) :
    ∀ b ∈ (chunksExact4 l).2, b < 256 := by
  intro b hb
  apply hl
  rw [← chunksExact4_join l]
  exact List.mem_append.mpr (Or.inr hb)

theorem foldl_wordStep_eq_flatten {p : Nat} (hp1 : 2 ^ 32 ≤ p) (hp2 : p < 2 ^ 33) {c : Crc32}
    (hc : Crc32.new p = some c) (ws : List (List Nat)) :
    ∀ s : Nat, s < 2 ^ 32 →
      (∀ w ∈ ws, (∃ b0 b1 b2 b3, w = [b0, b1, b2, b3]) ∧ ∀ b ∈ w, b < 256) →
      ws.foldl (wordStep c) s = ws.flatten.foldl (byteStep c) s := by
  induction ws with
  | nil =>
    intro s _ _
    rfl
  | cons w ws ih =>
    intro s hs hws
    obtain ⟨⟨b0, b1, b2, b3, rfl⟩, hbytes⟩ := hws w (by simp)
    have h0 : b0 < 256 := hbytes b0 (by simp)
    have h1 : b1 < 256 := hbytes b1 (by simp)
    have h2 : b2 < 256 := hbytes b2 (by simp)
    have h3 : b3 < 256 := hbytes b3 (by simp)
    have hseed : wordStep c s [b0, b1, b2, b3] = List.foldl (byteStep c) s [b0, b1, b2, b3] := by
      rw [wordStep_eq_byteSteps hp1 hp2 hc hs h0 h1 h2 h3]
      rfl
    rw [List.foldl_cons, List.flatten_cons, List.foldl_append, hseed]
    apply ih
    · exact foldl_byteStep_lt c hs hbytes
    · intro w hw
      exact hws w (List.mem_cons_of_mem _ hw)

theorem crcRaw_eq_foldl {p : Nat} (hp1 : 2 ^ 32 ≤ p) (hp2 : p < 2 ^ 33) {c : Crc32}
    (hc : Crc32.new p = some c) {s : Nat} (hs : s < 2 ^ 32) {data : List Nat}
    (hd : ∀ b ∈ data, b < 256) :
    crcRaw c s data = data.foldl (byteStep c) s := by
  have hshape : ∀ w ∈ (chunksExact4 data).1,
      (∃ b0 b1 b2 b3, w = [b0, b1, b2, b3]) ∧ ∀ b ∈ w, b < 256 :=
    fun w hw => ⟨chunksExact4_chunk_shape data w hw, chunksExact4_chunk_bytes hd w hw⟩
  show List.foldl (byteStep c) (List.foldl (wordStep c) s (chunksExact4 data).1)
    (chunksExact4 data).2 = _
  rw [foldl_wordStep_eq_flatten hp1 hp2 hc _ s hs hshape, ← List.foldl_append,
    chunksExact4_join]

/-- C1: chaining: for every constructed engine (a generator polynomial with
its degree-32 bit set, i.e. `2^32 ≤ p < 2^33`), splitting a byte sequence and
feeding the CRC of the first part as the seed for the second gives the same
result as one pass over the whole sequence. -/
theorem crc32_chaining {p : Nat} (hp1 : 2 ^ 32 ≤ p) (hp2 : p < 2 ^ 33) {c : Crc32}
    (hc : Crc32.new p = some c) {s1 s2 : List Nat}
    (h1 : ∀ b ∈ s1, b < 256) (h2 : ∀ b ∈ s2, b < 256) :
    c.crc32 0 (s1 ++ s2) = c.crc32 (c.crc32 0 s1) s2 := by
  have hM : (0xffffffff : Nat) < 2 ^ 32 := by norm_num
  have h12 : ∀ b ∈ s1 ++ s2, b < 256 := by
    intro b hb
    rcases List.mem_append.mp hb with h | h
    · exact h1 b h
    · exact h2 b h
  show crcRaw c (0 ^^^ 0xffffffff) (s1 ++ s2) ^^^ 0xffffffff =
    crcRaw c ((crcRaw c (0 ^^^ 0xffffffff) s1 ^^^ 0xffffffff) ^^^ 0xffffffff) s2 ^^^ 0xffffffff
  rw [Nat.zero_xor, Nat.xor_assoc, Nat.xor_self, Nat.xor_zero]
  rw [crcRaw_eq_foldl hp1 hp2 hc hM h12, crcRaw_eq_foldl hp1 hp2 hc hM h1,
    crcRaw_eq_foldl hp1 hp2 hc (foldl_byteStep_lt c hM h1) h2, List.foldl_append]

theorem crc32_chaining_witness :
    stdEngine.crc32 0 ([49, 50] ++ [51]) =
      stdEngine.crc32 (stdEngine.crc32 0 [49, 50]) [51] :=
  crc32_chaining (p := 0x104c11db7) (by decide) (by decide) stdEngine_new
    (by decide) (by decide)
